import Mathlib

/-!
# Verification of the ruzzle-os module tooling

A shallow embedding, in Lean 4, of the module-bundle codec, manifest
grammar, schema validators and marketplace index builder of the
`ruzzle-os` repository (`tools/pack_module.py`, `tools/market_scan.py`,
`tools/module_lint.py`, `tools/slot_lint.py`), together with proofs of
the behavioural properties stated in the project specification.

Modelling conventions:
* Byte strings are `List Nat` with each byte `< 256` where it matters.
* Python text (`str`) is `List Char` (a sequence of Unicode scalar values).
* Fallible Python functions that `raise ValueError` become `Except`-valued
  Lean functions carrying a structured error code mirroring the message.
* Machine integers are `Nat` with explicit `% 2 ^ 32` / `% 2 ^ 16`
  truncation at the points where the source packs fixed-width fields.
-/

set_option maxRecDepth 100000

namespace Ruzzle

/-! ## Little-endian packing (Python `struct.pack`/`unpack_from`)

`struct.pack("<H", v)` / `struct.pack("<I", v)` produce 2- and 4-byte
little-endian encodings; `struct.unpack_from` reads them back.  The
source only packs in-range values (`struct.error` aborts otherwise), so
the theorems below carry explicit `< 2 ^ 16` / `< 2 ^ 32` bounds. -/

def packU16 (v : Nat) : List Nat :=
  [v % 256, v / 256 % 256]

def packU32 (v : Nat) : List Nat :=
  [v % 256, v / 256 % 256, v / 256 ^ 2 % 256, v / 256 ^ 3 % 256]

/-- `struct.unpack_from("<H", data, off)[0]`: read a little-endian u16 at
`off` (the source checks the buffer is long enough before reading). -/
def unpackU16 (data : List Nat) (off : Nat) : Nat :=
  data.getD off 0 % 256 + 256 * (data.getD (off + 1) 0 % 256)

/-- `struct.unpack_from("<I", data, off)[0]`: read a little-endian u32 at
`off`. -/
def unpackU32 (data : List Nat) (off : Nat) : Nat :=
  data.getD off 0 % 256 + 256 * (data.getD (off + 1) 0 % 256) +
    256 ^ 2 * (data.getD (off + 2) 0 % 256) + 256 ^ 3 * (data.getD (off + 3) 0 % 256)

theorem packU16_length (v : Nat) : (packU16 v).length = 2 := rfl

theorem packU32_length (v : Nat) : (packU32 v).length = 4 := rfl

theorem packU16_lt (v : Nat) : ∀ b ∈ packU16 v, b < 256 := by
  intro b hb
  simp only [packU16, List.mem_cons, List.not_mem_nil, or_false] at hb
  rcases hb with h | h <;> subst h <;> omega

theorem packU32_lt (v : Nat) : ∀ b ∈ packU32 v, b < 256 := by
  intro b hb
  simp only [packU32, List.mem_cons, List.not_mem_nil, or_false] at hb
  rcases hb with h | h | h | h <;> subst h <;> omega

/-! ## SHA-256 and HMAC (Python `hashlib.sha256`, `hmac.new(..).digest()`)

The source signs bundles with `hmac.new(key, manifest + payload,
hashlib.sha256).digest()`.  We embed the FIPS 180-4 SHA-256 compression
function and the RFC 2104 HMAC construction over byte lists, with 32-bit
words as `Nat` truncated by `% 2 ^ 32`. -/

def rotr32 (n x : Nat) : Nat :=
  (x >>> n ||| x <<< (32 - n)) % 2 ^ 32

def shaCh (x y z : Nat) : Nat :=
  x &&& y ^^^ (x ^^^ 0xffffffff) &&& z

def shaMaj (x y z : Nat) : Nat :=
  x &&& y ^^^ x &&& z ^^^ y &&& z

def bigSigma0 (x : Nat) : Nat := rotr32 2 x ^^^ rotr32 13 x ^^^ rotr32 22 x

def bigSigma1 (x : Nat) : Nat := rotr32 6 x ^^^ rotr32 11 x ^^^ rotr32 25 x

def smallSigma0 (x : Nat) : Nat := rotr32 7 x ^^^ rotr32 18 x ^^^ x >>> 3

def smallSigma1 (x : Nat) : Nat := rotr32 17 x ^^^ rotr32 19 x ^^^ x >>> 10

/-- The 64 SHA-256 round constants, grouped eight per row of the FIPS table. -/
def shaK : List Nat :=
  [0x428a2f98, 0x71374491, 0xb5c0fbcf, 0xe9b5dba5,
   0x3956c25b, 0x59f111f1, 0x923f82a4, 0xab1c5ed5] ++
  [0xd807aa98, 0x12835b01, 0x243185be, 0x550c7dc3,
   0x72be5d74, 0x80deb1fe, 0x9bdc06a7, 0xc19bf174] ++
  [0xe49b69c1, 0xefbe4786, 0x0fc19dc6, 0x240ca1cc,
   0x2de92c6f, 0x4a7484aa, 0x5cb0a9dc, 0x76f988da] ++
  [0x983e5152, 0xa831c66d, 0xb00327c8, 0xbf597fc7,
   0xc6e00bf3, 0xd5a79147, 0x06ca6351, 0x14292967] ++
  [0x27b70a85, 0x2e1b2138, 0x4d2c6dfc, 0x53380d13,
   0x650a7354, 0x766a0abb, 0x81c2c92e, 0x92722c85] ++
  [0xa2bfe8a1, 0xa81a664b, 0xc24b8b70, 0xc76c51a3,
   0xd192e819, 0xd6990624, 0xf40e3585, 0x106aa070] ++
  [0x19a4c116, 0x1e376c08, 0x2748774c, 0x34b0bcb5,
   0x391c0cb3, 0x4ed8aa4a, 0x5b9cca4f, 0x682e6ff3] ++
  [0x748f82ee, 0x78a5636f, 0x84c87814, 0x8cc70208,
   0x90befffa, 0xa4506ceb, 0xbef9a3f7, 0xc67178f2]

structure ShaRegs where
  a : Nat
  b : Nat
  c : Nat
  d : Nat
  e : Nat
  f : Nat
  g : Nat
  h : Nat
  deriving Repr, DecidableEq

def shaInit : ShaRegs :=
  ⟨0x6a09e667, 0xbb67ae85, 0x3c6ef372, 0xa54ff53a,
   0x510e527f, 0x9b05688c, 0x1f83d9ab, 0x5be0cd19⟩

/-- Read a big-endian 32-bit word from four bytes. -/
def beWord (b0 b1 b2 b3 : Nat) : Nat :=
  ((b0 % 256) <<< 24) + ((b1 % 256) <<< 16) + ((b2 % 256) <<< 8) + b3 % 256

/-- Split a 64-byte block into its 16 big-endian message words. -/
def blockWords : List Nat → List Nat
  | b0 :: b1 :: b2 :: b3 :: rest => beWord b0 b1 b2 b3 :: blockWords rest
  | _ => []

/-- Extend 16 message words to the 64-entry SHA-256 message schedule. -/
def msgSchedule (w16 : List Nat) : List Nat :=
  (List.range 64).foldl
    (fun acc i =>
      if i < 16 then acc ++ [w16.getD i 0]
      else
        acc ++ [(smallSigma1 (acc.getD (i - 2) 0) + acc.getD (i - 7) 0 +
          smallSigma0 (acc.getD (i - 15) 0) + acc.getD (i - 16) 0) % 2 ^ 32])
    []

def shaRound (r : ShaRegs) (kw : Nat × Nat) : ShaRegs :=
  let t1 := (r.h + bigSigma1 r.e + shaCh r.e r.f r.g + kw.1 + kw.2) % 2 ^ 32
  let t2 := (bigSigma0 r.a + shaMaj r.a r.b r.c) % 2 ^ 32
  ⟨(t1 + t2) % 2 ^ 32, r.a, r.b, r.c, (r.d + t1) % 2 ^ 32, r.e, r.f, r.g⟩

/-- One SHA-256 compression over a 64-byte block. -/
def compressBlock (s : ShaRegs) (block : List Nat) : ShaRegs :=
  let ws := msgSchedule (blockWords block)
  let r := (shaK.zip ws).foldl shaRound s
  ⟨(s.a + r.a) % 2 ^ 32, (s.b + r.b) % 2 ^ 32, (s.c + r.c) % 2 ^ 32,
   (s.d + r.d) % 2 ^ 32, (s.e + r.e) % 2 ^ 32, (s.f + r.f) % 2 ^ 32,
   (s.g + r.g) % 2 ^ 32, (s.h + r.h) % 2 ^ 32⟩

/-- Big-endian byte encoding of `v`, `n` bytes wide. -/
def beBytes (n v : Nat) : List Nat :=
  match n with
  | 0 => []
  | m + 1 => beBytes m (v / 256) ++ [v % 256]

/-- SHA-256 padding: `0x80`, zeros to 56 mod 64, then the 8-byte
big-endian bit length. -/
def shaPad (msg : List Nat) : List Nat :=
  let zeros := (56 + 64 - (msg.length + 1) % 64) % 64
  msg ++ 0x80 :: List.replicate zeros 0 ++ beBytes 8 (8 * msg.length)

def chunks64Fuel : Nat → List Nat → List (List Nat)
  | 0, _ => []
  | fuel + 1, l => if l.isEmpty then [] else l.take 64 :: chunks64Fuel fuel (l.drop 64)

/-- Split into consecutive 64-byte blocks.  (The fuel — an upper bound on
the number of blocks — keeps the recursion structural, so that digests
evaluate definitionally.) -/
def chunks64 (l : List Nat) : List (List Nat) :=
  chunks64Fuel l.length l

def regsBytes (s : ShaRegs) : List Nat :=
  beBytes 4 s.a ++ beBytes 4 s.b ++ beBytes 4 s.c ++ beBytes 4 s.d ++
    beBytes 4 s.e ++ beBytes 4 s.f ++ beBytes 4 s.g ++ beBytes 4 s.h

/-- SHA-256 of a byte list, as its 32-byte digest. -/
def sha256 (msg : List Nat) : List Nat :=
  regsBytes ((chunks64 (shaPad msg)).foldl compressBlock shaInit)

theorem beBytes_length (n v : Nat) : (beBytes n v).length = n := by
  induction n generalizing v with
  | zero => rfl
  | succ m ih => simp [beBytes, ih]

theorem sha256_length (msg : List Nat) : (sha256 msg).length = 32 := by
  simp [sha256, regsBytes, beBytes_length]

/-- HMAC-SHA-256 (RFC 2104), as computed by Python's
`hmac.new(key, msg, hashlib.sha256).digest()` (block size 64). -/
def hmacSha256 (key msg : List Nat) : List Nat :=
  let k0 := if 64 < key.length then sha256 key else key
  let kp := k0 ++ List.replicate (64 - k0.length) 0
  sha256 ((kp.map (· ^^^ 0x5c)) ++ sha256 ((kp.map (· ^^^ 0x36)) ++ msg))

theorem hmacSha256_length (key msg : List Nat) :
    (hmacSha256 key msg).length = 32 := by
  simp [hmacSha256, sha256_length]

/-! ## Python text primitives

The manifest parsers work on Python `str` values via `strip`, `splitlines`,
`split`, `startswith` and `in`.  We model text as `List Char` and embed
those primitives, including Python's Unicode whitespace set and line
boundary set. -/

/-- `str.isspace` on a single character: the Unicode whitespace set which
`str.strip()` (no argument) removes. -/
def pyIsSpace (c : Char) : Bool :=
  let n := c.toNat
  (9 ≤ n && n ≤ 13) || (28 ≤ n && n ≤ 31) || n == 32 || n == 133 || n == 160 ||
    n == 5760 || (8192 ≤ n && n ≤ 8202) || n == 8232 || n == 8233 ||
    n == 8239 || n == 8287 || n == 12288

/-- `str.strip()`: remove leading and trailing whitespace. -/
def pyStrip (cs : List Char) : List Char :=
  ((cs.dropWhile pyIsSpace).reverse.dropWhile pyIsSpace).reverse

/-- A character at which `str.splitlines` breaks a line (besides the
`"\r\n"` digraph, handled separately). -/
def pyIsLineBreak (c : Char) : Bool :=
  let n := c.toNat
  n == 10 || n == 13 || n == 11 || n == 12 || n == 28 || n == 29 || n == 30 ||
    n == 133 || n == 8232 || n == 8233

def pySplitlinesAux : List Char → List Char → List (List Char)
  | [], acc => if acc.isEmpty then [] else [acc.reverse]
  | '\r' :: '\n' :: r2, acc => acc.reverse :: pySplitlinesAux r2 []
  | c :: rest, acc =>
    if pyIsLineBreak c then acc.reverse :: pySplitlinesAux rest []
    else pySplitlinesAux rest (c :: acc)

/-- `str.splitlines()`: split at every line boundary, `"\r\n"` counting as
one boundary; a trailing boundary produces no final empty line. -/
def pySplitlines (cs : List Char) : List (List Char) :=
  pySplitlinesAux cs []

/-- `str.split(sep, 1)` for a one-character separator known to occur:
the text before the first occurrence, and everything after it. -/
def splitFirst (sep : Char) (cs : List Char) : List Char × List Char :=
  (cs.takeWhile (· ≠ sep), (cs.dropWhile (· ≠ sep)).drop 1)

/-- `str.split(sep)` for a one-character separator: every segment,
empty segments included. -/
def splitAll (sep : Char) : List Char → List (List Char)
  | [] => [[]]
  | c :: rest =>
    if c = sep then [] :: splitAll sep rest
    else
      match splitAll sep rest with
      | s :: ss => (c :: s) :: ss
      | [] => [[c]]

/-- Joining segments with a one-character separator (the language of a
regex of the shape `seg(?:SEPseg)*`). -/
def joinSep (sep : Char) : List (List Char) → List Char
  | [] => []
  | [s] => s
  | s :: rest => s ++ sep :: joinSep sep rest

/-! ## UTF-8 (Python `bytes.decode("utf-8")`, strict)

Strict UTF-8 decoding of a byte list into unicode scalar values:
rejects truncated sequences, continuation errors, overlong encodings,
surrogates and code points above `U+10FFFF`. -/

def utf8Cont (b : Nat) : Bool := 128 ≤ b && b ≤ 191

def utf8Decode : List Nat → Option (List Char)
  | [] => some []
  | b0 :: rest =>
    if b0 < 128 then (utf8Decode rest).map (Char.ofNat b0 :: ·)
    else
      match rest with
      | [] => none
      | b1 :: rest1 =>
        if 194 ≤ b0 && b0 ≤ 223 then
          if utf8Cont b1 then
            (utf8Decode rest1).map (Char.ofNat ((b0 - 192) * 64 + (b1 - 128)) :: ·)
          else none
        else
          match rest1 with
          | [] => none
          | b2 :: rest2 =>
            if 224 ≤ b0 && b0 ≤ 239 then
              if (if b0 == 224 then 160 ≤ b1 && b1 ≤ 191
                  else if b0 == 237 then 128 ≤ b1 && b1 ≤ 159
                  else utf8Cont b1) && utf8Cont b2 then
                (utf8Decode rest2).map
                  (Char.ofNat ((b0 - 224) * 4096 + (b1 - 128) * 64 + (b2 - 128)) :: ·)
              else none
            else
              match rest2 with
              | [] => none
              | b3 :: rest3 =>
                if 240 ≤ b0 && b0 ≤ 244 then
                  if (if b0 == 240 then 144 ≤ b1 && b1 ≤ 191
                      else if b0 == 244 then 128 ≤ b1 && b1 ≤ 143
                      else utf8Cont b1) && utf8Cont b2 && utf8Cont b3 then
                    (utf8Decode rest3).map
                      (Char.ofNat ((b0 - 240) * 262144 + (b1 - 128) * 4096 +
                        (b2 - 128) * 64 + (b3 - 128)) :: ·)
                  else none
                else none

/-- UTF-8 encoding of a scalar value (used to relate manifest text back
to manifest bytes). -/
def utf8EncodeChar (c : Char) : List Nat :=
  let n := c.toNat
  if n < 128 then [n]
  else if n < 2048 then [192 + n / 64, 128 + n % 64]
  else if n < 65536 then [224 + n / 4096, 128 + n / 64 % 64, 128 + n % 64]
  else [240 + n / 262144, 128 + n / 4096 % 64, 128 + n / 64 % 64, 128 + n % 64]

def utf8Encode (cs : List Char) : List Nat :=
  (cs.map utf8EncodeChar).flatten

/-! ## Manifest grammar parser

`parse_string`, `parse_list` and `parse_manifest` appear verbatim in
`tools/market_scan.py`, `tools/module_lint.py` and (as `parse_contract`,
with a different allowed-key set) `tools/slot_lint.py`; we embed them
once, parameterized by the allowed-key set and the string-typed key set.
`ValueError` messages become the constructors of `GrammarError`. -/

inductive GrammarError where
  | missingEq (line : Nat)
  | unknownKey (line : Nat) (key : List Char)
  | duplicateKey (line : Nat) (key : List Char)
  | invalidString
  | invalidList
  | emptyListItem
  deriving Repr, DecidableEq

/-- `parse_string`: strip, then require a double-quoted literal of
length ≥ 2 and return its interior. -/
def parseString (value : List Char) : Except GrammarError (List Char) :=
  let v := pyStrip value
  if v.length < 2 || !(v.head? == some '"' && v.getLast? == some '"') then
    .error .invalidString
  else
    .ok ((v.drop 1).dropLast)

/-- The item loop of `parse_list`: strip each comma segment, reject an
empty segment, parse the rest as string literals (first error wins, as
in the Python `for` loop). -/
def parseItems : List (List Char) → Except GrammarError (List (List Char))
  | [] => .ok []
  | raw :: rest =>
    let item := pyStrip raw
    if item.isEmpty then .error .emptyListItem
    else
      match parseString item with
      | .error e => .error e
      | .ok s =>
        match parseItems rest with
        | .error e => .error e
        | .ok ss => .ok (s :: ss)

/-- `parse_list`: `[]` is the empty list; otherwise the bracketed interior
is split on `,`; each segment is stripped, must be non-empty and must be
a string literal. -/
def parseList (value : List Char) : Except GrammarError (List (List Char)) :=
  let v := pyStrip value
  if v = ['[', ']'] then .ok []
  else if !(v.head? == some '[' && v.getLast? == some ']') then
    .error .invalidList
  else
    let inner := pyStrip ((v.drop 1).dropLast)
    if inner.isEmpty then .ok []
    else parseItems (splitAll ',' inner)

/-- A parsed manifest value: `name`/`version`/`slot`/`summary` decode as
strings, every other allowed key as a string list. -/
inductive MValue where
  | str (s : List Char)
  | list (items : List (List Char))
  deriving Repr, DecidableEq

/-- A parsed manifest: an insertion-ordered mapping from key to value
(Python `dict` restricted to the operations the tools use). -/
abbrev ManifestData := List (List Char × MValue)

def lookupKey (d : ManifestData) (k : List Char) : Option MValue :=
  match d.find? (fun kv => kv.1 == k) with
  | some kv => some kv.2
  | none => none

def hasKey (d : ManifestData) (k : List Char) : Bool :=
  d.any (fun kv => kv.1 == k)

/-- One step of `parse_manifest`'s line loop, on `enumerate(start=1)`
numbered lines. -/
def parseManifestAux (allowed strKeys : List (List Char)) :
    List (Nat × List Char) → ManifestData → Except GrammarError ManifestData
  | [], data => .ok data
  | (idx, line) :: rest, data =>
    let stripped := pyStrip line
    if stripped.isEmpty || stripped.head? == some '#' then
      parseManifestAux allowed strKeys rest data
    else if !(stripped.contains '=') then .error (.missingEq idx)
    else
      let kr := splitFirst '=' stripped
      let key := pyStrip kr.1
      let raw := pyStrip kr.2
      if !(allowed.contains key) then .error (.unknownKey idx key)
      else if hasKey data key then .error (.duplicateKey idx key)
      else if strKeys.contains key then
        match parseString raw with
        | .error e => .error e
        | .ok s => parseManifestAux allowed strKeys rest (data ++ [(key, .str s)])
      else
        match parseList raw with
        | .error e => .error e
        | .ok items => parseManifestAux allowed strKeys rest (data ++ [(key, .list items)])

/-- `parse_manifest` / `parse_contract`, over the given key sets. -/
def parseManifestWith (allowed strKeys : List (List Char)) (text : List Char) :
    Except GrammarError ManifestData :=
  parseManifestAux allowed strKeys
    ((pySplitlines text).enum.map (fun il => (il.1 + 1, il.2))) []

/-- `ALLOWED_KEYS` of `market_scan.py` / `module_lint.py`. -/
def moduleAllowedKeys : List (List Char) :=
  ["name".toList, "version".toList, "provides".toList, "slots".toList,
   "requires_caps".toList, "depends".toList]

def moduleStrKeys : List (List Char) := ["name".toList, "version".toList]

/-- `parse_manifest` exactly as in `market_scan.py` and `module_lint.py`. -/
def parseManifest (text : List Char) : Except GrammarError ManifestData :=
  parseManifestWith moduleAllowedKeys moduleStrKeys text

/-- `ALLOWED_KEYS` of `slot_lint.py`. -/
def slotAllowedKeys : List (List Char) :=
  ["slot".toList, "summary".toList, "provides".toList, "requires_caps".toList]

def slotStrKeys : List (List Char) := ["slot".toList, "summary".toList]

/-- `parse_contract` of `slot_lint.py`. -/
def parseContract (text : List Char) : Except GrammarError ManifestData :=
  parseManifestWith slotAllowedKeys slotStrKeys text

/-- `str(data.get(k, ""))` where the stored value, when present, was built
by `parse_string` (string-typed keys are parsed as strings, so the
list branch is unreachable on parser output). -/
def getStrD (d : ManifestData) (k : List Char) : List Char :=
  match lookupKey d k with
  | some (.str s) => s
  | some (.list _) => []
  | none => []

/-- `list(data.get(k, []))`: a stored list is copied; a stored string
would iterate into its characters (Python `list(str)`); a missing key
yields `[]`. -/
def getListD (d : ManifestData) (k : List Char) : List (List Char) :=
  match lookupKey d k with
  | some (.list items) => items
  | some (.str s) => s.map (fun c => [c])
  | none => []

/-! ## Identifier grammars

The lint tools compile anchored regexes over `SEGMENT_RE = "[a-z0-9-]+"`:

* `MODULE_RE  = ^seg(?:-seg)*$`            (`module_lint.py`)
* `SERVICE_RE = ^ruzzle\.(?:seg\.)*seg$`   (both lint tools)
* `SLOT_RE    = ^ruzzle\.slot\.(?:seg\.)*seg$`      (`module_lint.py`)
* `SLOT_RE    = ^ruzzle\.slot\.(?:seg\.)*seg@\d+$`  (`slot_lint.py`)
* `VERSION_RE = ^\d+\.\d+\.\d+(?:[-+][A-Za-z0-9._-]+)?$`

For each regex we give (a) a `*Lang` proposition reading the pattern off
directly — a segment decomposition joined by the literal separators —
and (b) an executable recognizer used inside the embedded lint code,
proved equivalent to the language.  `\d` is modelled as the ASCII digits
(Python's `\d`, lacking `re.ASCII`, also accepts non-ASCII decimal
digits; the repository's identifiers only use ASCII).  The regexes are
matched against single manifest lines, which contain no line-boundary
characters, so `$` is modelled as end-of-string (Python's `$` would also
match before a trailing newline). -/

/-- The character class `[a-z0-9-]` of `SEGMENT_RE`. -/
def isSegChar (c : Char) : Bool :=
  let n := c.toNat
  (97 ≤ n && n ≤ 122) || (48 ≤ n && n ≤ 57) || n == 45

/-- `\d`, restricted to ASCII digits. -/
def isDigitChar (c : Char) : Bool :=
  48 ≤ c.toNat && c.toNat ≤ 57

/-- The tag class `[A-Za-z0-9._-]` of `VERSION_RE`. -/
def isTagChar (c : Char) : Bool :=
  let n := c.toNat
  (65 ≤ n && n ≤ 90) || (97 ≤ n && n ≤ 122) || (48 ≤ n && n ≤ 57) ||
    n == 46 || n == 95 || n == 45

/-- A match of `SEGMENT_RE`: a non-empty run of `[a-z0-9-]`. -/
def SegStr (s : List Char) : Prop :=
  s ≠ [] ∧ ∀ c ∈ s, isSegChar c = true

/-- The language of `MODULE_RE = ^seg(?:-seg)*$`: segments joined by
single `-` separators. -/
def ModuleReLang (s : List Char) : Prop :=
  ∃ segs : List (List Char),
    segs ≠ [] ∧ (∀ t ∈ segs, SegStr t) ∧ s = joinSep '-' segs

/-- The language of `(?:seg\.)*seg`: segments joined by `.`. -/
def DottedLang (s : List Char) : Prop :=
  ∃ segs : List (List Char),
    segs ≠ [] ∧ (∀ t ∈ segs, SegStr t) ∧ s = joinSep '.' segs

/-- The language of `SERVICE_RE = ^ruzzle\.(?:seg\.)*seg$`. -/
def ServiceReLang (s : List Char) : Prop :=
  ∃ body, DottedLang body ∧ s = "ruzzle.".toList ++ body

/-- The language of `module_lint.py`'s
`SLOT_RE = ^ruzzle\.slot\.(?:seg\.)*seg$`. -/
def ModuleSlotReLang (s : List Char) : Prop :=
  ∃ body, DottedLang body ∧ s = "ruzzle.slot.".toList ++ body

/-- The language of `slot_lint.py`'s
`SLOT_RE = ^ruzzle\.slot\.(?:seg\.)*seg@\d+$`. -/
def SlotContractReLang (s : List Char) : Prop :=
  ∃ body rev, DottedLang body ∧ rev ≠ [] ∧ (∀ c ∈ rev, isDigitChar c = true) ∧
    s = "ruzzle.slot.".toList ++ body ++ '@' :: rev

/-- The language of `VERSION_RE`. -/
def VersionReLang (s : List Char) : Prop :=
  ∃ a b c tail,
    a ≠ [] ∧ (∀ x ∈ a, isDigitChar x = true) ∧
    b ≠ [] ∧ (∀ x ∈ b, isDigitChar x = true) ∧
    c ≠ [] ∧ (∀ x ∈ c, isDigitChar x = true) ∧
    (tail = [] ∨ ∃ sep t, tail = sep :: t ∧ (sep = '-' ∨ sep = '+') ∧
      t ≠ [] ∧ ∀ x ∈ t, isTagChar x = true) ∧
    s = a ++ '.' :: b ++ '.' :: c ++ tail

/-- Executable recognizer for `MODULE_RE`.  Because `-` belongs to the
segment class itself, the language collapses to the non-empty strings
over `[a-z0-9-]` (`moduleReLang_iff_match`). -/
def moduleReMatch (s : List Char) : Bool :=
  !s.isEmpty && s.all isSegChar

/-- Executable recognizer for `(?:seg\.)*seg`: every `.`-separated part
is a non-empty run of segment characters (deterministic because the
class excludes `.`). -/
def dottedMatch (s : List Char) : Bool :=
  (splitAll '.' s).all (fun p => !p.isEmpty && p.all isSegChar)

/-- Strip a literal pattern from the front of `s` (the anchored regex
literal `ruzzle\.` / `ruzzle\.slot\.`). -/
def chopLit (pre s : List Char) : Option (List Char) :=
  if s.take pre.length = pre then some (s.drop pre.length) else none

/-- Executable recognizer for `SERVICE_RE`. -/
def serviceReMatch (s : List Char) : Bool :=
  match chopLit "ruzzle.".toList s with
  | some rest => dottedMatch rest
  | none => false

/-- Executable recognizer for `module_lint.py`'s `SLOT_RE` (no revision
suffix). -/
def moduleSlotReMatch (s : List Char) : Bool :=
  match chopLit "ruzzle.slot.".toList s with
  | some rest => dottedMatch rest
  | none => false

/-- Executable recognizer for `slot_lint.py`'s `SLOT_RE` (mandatory
`@<digits>` revision; deterministic because neither the segment class
nor `\d` contains `@`). -/
def slotContractReMatch (s : List Char) : Bool :=
  match chopLit "ruzzle.slot.".toList s with
  | none => false
  | some rest =>
    match splitAll '@' rest with
    | [body, rev] => dottedMatch body && !rev.isEmpty && rev.all isDigitChar
    | _ => false

/-- The optional `(?:[-+][A-Za-z0-9._-]+)?$` suffix of `VERSION_RE`:
either nothing, or `-`/`+` followed by a non-empty tag. -/
def versionTail : List Char → Bool
  | [] => true
  | c :: tag => (c == '-' || c == '+') && !tag.isEmpty && tag.all isTagChar

/-- Executable recognizer for `VERSION_RE` (deterministic: `\d` excludes
`.`, `-` and `+`): three non-empty digit runs separated by `.`, then the
optional pre-release/build tail. -/
def versionReMatch (s : List Char) : Bool :=
  match s.dropWhile isDigitChar with
  | '.' :: t1 =>
    match t1.dropWhile isDigitChar with
    | '.' :: t2 =>
      !(s.takeWhile isDigitChar).isEmpty && !(t1.takeWhile isDigitChar).isEmpty &&
        !(t2.takeWhile isDigitChar).isEmpty && versionTail (t2.dropWhile isDigitChar)
    | _ => false
  | _ => false

/-! ## Schema validators (`module_lint.lint_manifest`, `slot_lint.lint_contract`)

Diagnostics are modelled as structured values (the Python code emits
`f"{path}: ..."` strings; the path prefix is presentation only). -/

/-- The closed `CAPABILITIES` vocabulary (identical in `module_lint.py`
and `slot_lint.py`). -/
def capabilities : List (List Char) :=
  ["ConsoleWrite".toList, "EndpointCreate".toList, "ShmCreate".toList,
   "ProcessSpawn".toList, "Timer".toList, "FsRoot".toList,
   "WindowServer".toList, "InputDevice".toList, "GpuDevice".toList]

inductive Diag where
  | missingKey (k : List Char)
  | invalidName (s : List Char)
  | invalidVersion (s : List Char)
  | invalidService (s : List Char)
  | invalidSlot (s : List Char)
  | unknownCap (s : List Char)
  | invalidDep (s : List Char)
  | providesSlotsNotList
  | providesNotList
  | requiresCapsNotList
  | dependsNotList
  deriving Repr, DecidableEq

def getValD (d : ManifestData) (k : List Char) (dflt : MValue) : MValue :=
  (lookupKey d k).getD dflt

/-- The schema-validation part of `module_lint.lint_manifest`
(lines 94–135), applied to an already parsed manifest. -/
def lintManifestData (d : ManifestData) : List Diag :=
  (if !hasKey d "name".toList then [.missingKey "name".toList] else []) ++
  (if !hasKey d "version".toList then [.missingKey "version".toList] else []) ++
  (let name := getStrD d "name".toList
   if !name.isEmpty && !moduleReMatch name then [.invalidName name] else []) ++
  (let version := getStrD d "version".toList
   if !version.isEmpty && !versionReMatch version then [.invalidVersion version]
   else []) ++
  (match getValD d "provides".toList (.list []), getValD d "slots".toList (.list []) with
   | .list provides, .list slots =>
     (provides.filterMap fun s =>
       if !serviceReMatch s then some (.invalidService s) else none) ++
     (slots.filterMap fun s =>
       if !moduleSlotReMatch s then some (.invalidSlot s) else none)
   | _, _ => [.providesSlotsNotList]) ++
  (match getValD d "requires_caps".toList (.list []) with
   | .list caps =>
     caps.filterMap fun c =>
       if !capabilities.contains c then some (.unknownCap c) else none
   | _ => [.requiresCapsNotList]) ++
  (match getValD d "depends".toList (.list []) with
   | .list deps =>
     deps.filterMap fun s =>
       if !moduleReMatch s then some (.invalidDep s) else none
   | _ => [.dependsNotList])

inductive LintMsg where
  | grammar (e : GrammarError)
  | diag (g : Diag)
  deriving Repr, DecidableEq

/-- `module_lint.lint_manifest` on the text of one manifest (grammar
failure short-circuits into a single message; schema diagnostics are
collected). -/
def lintManifest (text : List Char) : List LintMsg :=
  match parseManifest text with
  | .error e => [.grammar e]
  | .ok d => (lintManifestData d).map .diag

/-- The schema-validation part of `slot_lint.lint_contract`
(lines 90–116). -/
def lintContractData (d : ManifestData) : List Diag :=
  (let slot := getStrD d "slot".toList
   if slot.isEmpty then [.missingKey "slot".toList]
   else if !slotContractReMatch slot then [.invalidSlot slot]
   else []) ++
  (let summary := getStrD d "summary".toList
   if summary.isEmpty then [.missingKey "summary".toList] else []) ++
  (match getValD d "provides".toList (.list []) with
   | .list provides =>
     provides.filterMap fun s =>
       if !serviceReMatch s then some (.invalidService s) else none
   | _ => [.providesNotList]) ++
  (match getValD d "requires_caps".toList (.list []) with
   | .list caps =>
     caps.filterMap fun c =>
       if !capabilities.contains c then some (.unknownCap c) else none
   | _ => [.requiresCapsNotList])

/-- `slot_lint.lint_contract` on the text of one slot contract. -/
def lintContract (text : List Char) : List LintMsg :=
  match parseContract text with
  | .error e => [.grammar e]
  | .ok d => (lintContractData d).map .diag

/-! ## Bundle codec

`pack_module.build_bundle` (encode) and `market_scan.parse_bundle`
(decode).  Decode is split into `decodeBundle` — the codec layer, header
through signature verification (lines 98–134) — and `parseBundle`, which
continues into manifest parsing and index-entry construction
(lines 136–155).  `ValueError` messages become `BundleError`
constructors; the spec's taxonomy groups them as `FormatError`
(`tooSmall`/`invalidMagic`/`unsupportedVersion`), `TruncatedError`
(`truncated`), `EncodingError` (`notUtf8`) and `SignatureError`
(`invalidSigLength`/`signatureMismatch`, §7: "MAC mismatch or wrong
trailing-byte count"). -/

def MAGIC : List Nat := [0x52, 0x4d, 0x4f, 0x44]

def HEADER_LEN : Nat := 4 + 2 + 4 + 4

def SIGNATURE_LEN : Nat := 32

inductive BundleError where
  | tooSmall
  | invalidMagic
  | unsupportedVersion
  | truncated
  | notUtf8
  | trailingV1
  | invalidSigLength
  | signatureMismatch
  | grammar (e : GrammarError)
  | missingNameVersion
  deriving Repr, DecidableEq

/-- The spec's `SignatureError` class. -/
def BundleError.isSignatureError : BundleError → Bool
  | .invalidSigLength => true
  | .signatureMismatch => true
  | _ => false

/-- The spec's `FormatError` class. -/
def BundleError.isFormatError : BundleError → Bool
  | .tooSmall => true
  | .invalidMagic => true
  | .unsupportedVersion => true
  | _ => false

structure Decoded where
  version : Nat
  manifestBytes : List Nat
  payloadBytes : List Nat
  manifestText : List Char
  verified : Bool
  deriving Repr, DecidableEq

/-- `parse_bundle`, codec layer (lines 98–134): header checks, slicing,
UTF-8 decoding of the manifest, trailing-byte discipline and (for v2)
MAC verification.  Note the source decodes the manifest as UTF-8
*before* the version-specific signature checks. -/
def decodeBundle (key data : List Nat) : Except BundleError Decoded :=
  if data.length < HEADER_LEN then .error .tooSmall
  else if data.take 4 ≠ MAGIC then .error .invalidMagic
  else
    let version := unpackU16 data 4
    if version ≠ 1 ∧ version ≠ 2 then .error .unsupportedVersion
    else
      let manifestLen := unpackU32 data 6
      let payloadLen := unpackU32 data 10
      let manifestEnd := HEADER_LEN + manifestLen
      let payloadEnd := manifestEnd + payloadLen
      if data.length < payloadEnd then .error .truncated
      else
        let manifestBytes := (data.take manifestEnd).drop HEADER_LEN
        let payloadBytes := (data.take payloadEnd).drop manifestEnd
        match utf8Decode manifestBytes with
        | none => .error .notUtf8
        | some text =>
          if version = 1 then
            if payloadEnd ≠ data.length then .error .trailingV1
            else .ok ⟨version, manifestBytes, payloadBytes, text, false⟩
          else
            let sigEnd := payloadEnd + SIGNATURE_LEN
            if sigEnd ≠ data.length then .error .invalidSigLength
            else
              let signature := (data.take sigEnd).drop payloadEnd
              if signature ≠ hmacSha256 key (manifestBytes ++ payloadBytes) then
                .error .signatureMismatch
              else .ok ⟨version, manifestBytes, payloadBytes, text, true⟩

/-- An index entry (the dict built at `parse_bundle` lines 146–155). -/
structure Entry where
  name : List Char
  version : List Char
  provides : List (List Char)
  slots : List (List Char)
  caps : List (List Char)
  depends : List (List Char)
  verified : Bool
  file : List Char
  deriving Repr, DecidableEq

/-- `parse_bundle` in full: codec layer, then manifest parsing and entry
construction (lines 136–155). -/
def parseBundle (key : List Nat) (fileName : List Char) (data : List Nat) :
    Except BundleError Entry :=
  match decodeBundle key data with
  | .error e => .error e
  | .ok dec =>
    match parseManifest dec.manifestText with
    | .error e => .error (.grammar e)
    | .ok m =>
      let name := getStrD m "name".toList
      let versionStr := getStrD m "version".toList
      if name.isEmpty || versionStr.isEmpty then .error .missingNameVersion
      else
        .ok ⟨name, versionStr, getListD m "provides".toList,
          getListD m "slots".toList, getListD m "requires_caps".toList,
          getListD m "depends".toList, dec.verified, fileName⟩

/-- `pack_module.build_bundle`: 14-byte header (magic, version 2,
manifest length, payload length, little-endian), manifest, payload,
then the 32-byte HMAC-SHA-256 signature.  (`struct.pack` would abort on
lengths ≥ 2³²; theorems carry that bound explicitly.) -/
def buildBundle (manifest payload key : List Nat) : List Nat :=
  MAGIC ++ packU16 2 ++ packU32 manifest.length ++ packU32 payload.length ++
    manifest ++ payload ++ hmacSha256 key (manifest ++ payload)

inductive PackError where
  | emptyManifest
  | emptyPayload
  deriving Repr, DecidableEq

/-- `pack_module.main`, file I/O aside: reject an empty manifest or an
empty payload (`EmptyInputError`), then build the signed bundle. -/
def packBundle (manifest payload key : List Nat) : Except PackError (List Nat) :=
  if manifest.isEmpty then .error .emptyManifest
  else if payload.isEmpty then .error .emptyPayload
  else .ok (buildBundle manifest payload key)

/-- Modelled from the spec: the unsigned (version-1) encoder.  The
repository only ships the signing packer (`pack_module.py` hardcodes
`VERSION = 2`); the spec's Bundle Codec contract (§4.3, §8) also
describes `encode(manifest, payload, None)`: the same 14-byte header
with version 1 followed by manifest and payload bytes, and no trailing
MAC. -/
def encodeV1 (manifest payload : List Nat) : List Nat :=
  MAGIC ++ packU16 1 ++ packU32 manifest.length ++ packU32 payload.length ++
    manifest ++ payload

/-! ## Index builder (`market_scan.main` lines 223–236, `write_index`) -/

inductive ScanError where
  | bundleFailed (file : List Char) (e : BundleError)
  | duplicateName (name : List Char)
  deriving Repr, DecidableEq

/-- The scan loop: parse each bundle in discovery order, failing the
whole run on the first bundle error or duplicate name (`names` is the
set of names already seen). -/
def buildEntries (key : List Nat) (names : List (List Char)) :
    List (List Char × List Nat) → Except ScanError (List Entry)
  | [] => .ok []
  | (fname, data) :: rest =>
    match parseBundle key fname data with
    | .error e => .error (.bundleFailed fname e)
    | .ok entry =>
      if names.contains entry.name then .error (.duplicateName entry.name)
      else
        match buildEntries key (entry.name :: names) rest with
        | .error e => .error e
        | .ok es => .ok (entry :: es)

/-- Python string comparison: lexicographic on code points (`a <= b`). -/
def strLe : List Char → List Char → Bool
  | [], _ => true
  | _ :: _, [] => false
  | a :: as, b :: bs =>
    if a.toNat < b.toNat then true
    else if b.toNat < a.toNat then false
    else strLe as bs

def insertEntry (e : Entry) : List Entry → List Entry
  | [] => [e]
  | x :: xs => if strLe e.name x.name then e :: x :: xs else x :: insertEntry e xs

/-- `entries.sort(key=lambda item: str(item["name"]))`: a sort by name.
(Python's sort is stable; index entries have pairwise-distinct names, for
which every name-sorted permutation is unique — `sortByName_eq_of_perm` —
so insertion sort is an exact model.) -/
def sortByName (l : List Entry) : List Entry := l.foldr insertEntry []

/-- The whole index build: scan, then sort by module name.  An error
means the run aborted with a message and exit code 1 — no index file is
written. -/
def buildIndex (key : List Nat) (bundles : List (List Char × List Nat)) :
    Except ScanError (List Entry) :=
  match buildEntries key [] bundles with
  | .error e => .error e
  | .ok es => .ok (sortByName es)

/-- `", ".join` / `"\n".join`. -/
def joinStr (sep : List Char) : List (List Char) → List Char
  | [] => []
  | [s] => s
  | s :: rest => s ++ sep ++ joinStr sep rest

/-- `market_scan.format_list`. -/
def formatList (items : List (List Char)) : List Char :=
  if items.isEmpty then "[]".toList
  else '[' :: joinStr ", ".toList (items.map (fun i => '"' :: i ++ ['"'])) ++ [']']

/-- The lines `write_index` emits for one entry (lines 181–190), in the
fixed field order name, version, slots, caps, verified, provides,
depends, file. -/
def renderEntry (e : Entry) : List (List Char) :=
  [[], "[[piece]]".toList,
   "name = \"".toList ++ e.name ++ ['"'],
   "version = \"".toList ++ e.version ++ ['"'],
   "slots = ".toList ++ formatList e.slots,
   "caps = ".toList ++ formatList e.caps,
   "verified = ".toList ++ (if e.verified then "true".toList else "false".toList),
   "provides = ".toList ++ formatList e.provides,
   "depends = ".toList ++ formatList e.depends,
   "file = \"".toList ++ e.file ++ ['"']]

/-- `write_index`'s output text: header comment and per-entry blocks,
joined with newlines, plus a final newline. -/
def renderIndex (entries : List Entry) : List Char :=
  joinStr ['\n']
    ("# Auto-generated by tools/market_scan.py".toList ::
      (entries.map renderEntry).flatten) ++ ['\n']

/-- Modelled from the spec (§4.3): the codec's `encode(manifest_bytes,
payload_bytes, signing_key?)` entry point.  The signed branch is exactly
the repository's packer (`encode_some_eq_packBundle`); the unsigned
branch has no counterpart under `tools/` and follows the spec's words:
version 1 in the header and no trailing MAC, with the same
`EmptyInputError` checks. -/
def encode (manifest payload : List Nat) (key : Option (List Nat)) :
    Except PackError (List Nat) :=
  if manifest.isEmpty then .error .emptyManifest
  else if payload.isEmpty then .error .emptyPayload
  else
    match key with
    | some k => .ok (buildBundle manifest payload k)
    | none => .ok (encodeV1 manifest payload)

theorem encode_some_eq_packBundle (m p k : List Nat) :
    encode m p (some k) = packBundle m p k := by
  unfold encode packBundle
  by_cases h1 : m.isEmpty <;> by_cases h2 : p.isEmpty <;> simp [h1, h2]

/-! ## Header arithmetic lemmas -/

theorem unpackU16_at (l r : List Nat) (v : Nat) :
    unpackU16 (l ++ (packU16 v ++ r)) l.length = v % 2 ^ 16 := by
  unfold unpackU16
  rw [List.getD_append_right _ _ _ _ (Nat.le_refl _),
      List.getD_append_right _ _ _ _ (Nat.le_add_right _ _)]
  simp only [Nat.sub_self, Nat.add_sub_cancel_left]
  have h0 : (packU16 v ++ r).getD 0 0 = v % 256 :=
    List.getD_append _ _ _ _ (by simp [packU16])
  have h1 : (packU16 v ++ r).getD 1 0 = v / 256 % 256 :=
    List.getD_append _ _ _ _ (by simp [packU16])
  rw [h0, h1]
  omega

theorem unpackU32_at (l r : List Nat) (v : Nat) :
    unpackU32 (l ++ (packU32 v ++ r)) l.length = v % 2 ^ 32 := by
  unfold unpackU32
  rw [List.getD_append_right _ _ _ _ (Nat.le_refl _),
      List.getD_append_right _ _ _ _ (Nat.le_add_right _ _),
      List.getD_append_right _ _ _ _ (Nat.le_add_right _ _),
      List.getD_append_right _ _ _ _ (Nat.le_add_right _ _)]
  simp only [Nat.sub_self, Nat.add_sub_cancel_left]
  have h0 : (packU32 v ++ r).getD 0 0 = v % 256 :=
    List.getD_append _ _ _ _ (by simp [packU32])
  have h1 : (packU32 v ++ r).getD 1 0 = v / 256 % 256 :=
    List.getD_append _ _ _ _ (by simp [packU32])
  have h2 : (packU32 v ++ r).getD 2 0 = v / 256 ^ 2 % 256 :=
    List.getD_append _ _ _ _ (by simp [packU32])
  have h3 : (packU32 v ++ r).getD 3 0 = v / 256 ^ 3 % 256 :=
    List.getD_append _ _ _ _ (by simp [packU32])
  rw [h0, h1, h2, h3]
  omega

theorem buildBundle_length (m p key : List Nat) :
    (buildBundle m p key).length = 14 + m.length + p.length + 32 := by
  simp [buildBundle, MAGIC, packU16, packU32, hmacSha256_length]
  omega

/-- The 14-byte header `build_bundle` writes. -/
def headerV2 (m p : List Nat) : List Nat :=
  MAGIC ++ packU16 2 ++ packU32 m.length ++ packU32 p.length

theorem headerV2_length (m p : List Nat) : (headerV2 m p).length = 14 := rfl

theorem buildBundle_split (m p key : List Nat) :
    buildBundle m p key =
      headerV2 m p ++ (m ++ (p ++ hmacSha256 key (m ++ p))) := by
  simp [buildBundle, headerV2, List.append_assoc]

/-- Decoding a freshly packed signed bundle: headers parse back, the
slices recover the manifest and payload exactly, and the recomputed MAC
matches, so decode succeeds with `verified = true`.  (The manifest must
be valid UTF-8 — `parse_bundle` decodes it as text — and the lengths
must fit the u32 header fields.) -/
theorem decodeBundle_buildBundle (key m p : List Nat) (text : List Char)
    (hm : m.length < 2 ^ 32) (hp : p.length < 2 ^ 32)
    (hutf : utf8Decode m = some text) :
    decodeBundle key (buildBundle m p key) = .ok ⟨2, m, p, text, true⟩ := by
  have hlen := buildBundle_length m p key
  have hver : unpackU16 (buildBundle m p key) 4 = 2 := by
    have h := unpackU16_at MAGIC
      (packU32 m.length ++ (packU32 p.length ++
        (m ++ (p ++ hmacSha256 key (m ++ p))))) 2
    simpa [buildBundle, List.append_assoc] using h
  have hm' : m.length % 4294967296 = m.length := Nat.mod_eq_of_lt (by omega)
  have hp' : p.length % 4294967296 = p.length := Nat.mod_eq_of_lt (by omega)
  have hml : unpackU32 (buildBundle m p key) 6 = m.length := by
    have h := unpackU32_at (MAGIC ++ packU16 2)
      (packU32 p.length ++ (m ++ (p ++ hmacSha256 key (m ++ p)))) m.length
    simp only [buildBundle, List.append_assoc] at h ⊢
    simpa [MAGIC, packU16, hm'] using h
  have hpl : unpackU32 (buildBundle m p key) 10 = p.length := by
    have h := unpackU32_at (MAGIC ++ (packU16 2 ++ packU32 m.length))
      (m ++ (p ++ hmacSha256 key (m ++ p))) p.length
    simp only [buildBundle, List.append_assoc] at h ⊢
    simpa [MAGIC, packU16_length, packU32_length, hp'] using h
  have hmagic : (buildBundle m p key).take 4 = MAGIC := by
    rw [buildBundle, List.take_append_of_le_length (by simp [MAGIC])]
    rfl
  have hman : ((buildBundle m p key).take (14 + m.length)).drop 14 = m := by
    rw [buildBundle_split]
    rw [show 14 + m.length = (headerV2 m p).length + m.length from by
      rw [headerV2_length]]
    rw [List.take_append, List.take_left]
    rw [List.drop_left' (by simp [headerV2_length])]
  have hpay : ((buildBundle m p key).take (14 + m.length + p.length)).drop
      (14 + m.length) = p := by
    rw [buildBundle_split]
    rw [show 14 + m.length + p.length =
        (headerV2 m p).length + (m.length + p.length) from by
      rw [headerV2_length]; omega]
    rw [List.take_append, ← List.length_append m p]
    rw [show m ++ (p ++ hmacSha256 key (m ++ p)) =
        (m ++ p) ++ hmacSha256 key (m ++ p) from by simp [List.append_assoc]]
    rw [List.take_left]
    rw [show headerV2 m p ++ (m ++ p) = (headerV2 m p ++ m) ++ p from by
      simp [List.append_assoc]]
    rw [List.drop_left' (by simp [headerV2_length] <;> omega)]
  have hsig : ((buildBundle m p key).take (14 + m.length + p.length + 32)).drop
      (14 + m.length + p.length) = hmacSha256 key (m ++ p) := by
    rw [← hlen, List.take_length, buildBundle_split]
    rw [show headerV2 m p ++ (m ++ (p ++ hmacSha256 key (m ++ p))) =
        ((headerV2 m p ++ m) ++ p) ++ hmacSha256 key (m ++ p) from by
      simp [List.append_assoc]]
    rw [List.drop_left' (by simp [headerV2_length] <;> omega)]
  unfold decodeBundle
  simp only [show HEADER_LEN = 14 from rfl, show SIGNATURE_LEN = 32 from rfl,
    hver, hml, hpl, hmagic, hlen, hman, hpay, hsig, hutf]
  rw [if_neg (by omega), if_neg (show ¬ MAGIC ≠ MAGIC from fun h => h rfl),
    if_neg (by simp), if_neg (by omega), if_neg (by omega), if_neg (by omega),
    if_neg (show ¬ hmacSha256 key (m ++ p) ≠ hmacSha256 key (m ++ p) from
      fun h => h rfl)]

/-- The 14-byte header of the spec-modelled unsigned encoder. -/
def headerV1 (m p : List Nat) : List Nat :=
  MAGIC ++ packU16 1 ++ packU32 m.length ++ packU32 p.length

theorem headerV1_length (m p : List Nat) : (headerV1 m p).length = 14 := rfl

theorem encodeV1_split (m p : List Nat) :
    encodeV1 m p = headerV1 m p ++ (m ++ p) := by
  simp [encodeV1, headerV1, List.append_assoc]

theorem encodeV1_length (m p : List Nat) :
    (encodeV1 m p).length = 14 + m.length + p.length := by
  simp [encodeV1, MAGIC, packU16, packU32]
  omega

/-- Decoding a spec-modelled unsigned (v1) bundle: decode succeeds with
`verified = false` and recovers the manifest and payload exactly. -/
theorem decodeBundle_encodeV1 (key m p : List Nat) (text : List Char)
    (hm : m.length < 2 ^ 32) (hp : p.length < 2 ^ 32)
    (hutf : utf8Decode m = some text) :
    decodeBundle key (encodeV1 m p) = .ok ⟨1, m, p, text, false⟩ := by
  have hlen := encodeV1_length m p
  have hm' : m.length % 4294967296 = m.length := Nat.mod_eq_of_lt (by omega)
  have hp' : p.length % 4294967296 = p.length := Nat.mod_eq_of_lt (by omega)
  have hver : unpackU16 (encodeV1 m p) 4 = 1 := by
    have h := unpackU16_at MAGIC
      (packU32 m.length ++ (packU32 p.length ++ (m ++ p))) 1
    simpa [encodeV1, List.append_assoc] using h
  have hml : unpackU32 (encodeV1 m p) 6 = m.length := by
    have h := unpackU32_at (MAGIC ++ packU16 1)
      (packU32 p.length ++ (m ++ p)) m.length
    simp only [encodeV1, List.append_assoc] at h ⊢
    simpa [MAGIC, packU16, hm'] using h
  have hpl : unpackU32 (encodeV1 m p) 10 = p.length := by
    have h := unpackU32_at (MAGIC ++ (packU16 1 ++ packU32 m.length))
      (m ++ p) p.length
    simp only [encodeV1, List.append_assoc] at h ⊢
    simpa [MAGIC, packU16_length, packU32_length, hp'] using h
  have hmagic : (encodeV1 m p).take 4 = MAGIC := by
    rw [encodeV1, List.take_append_of_le_length (by simp [MAGIC])]
    rfl
  have hman : ((encodeV1 m p).take (14 + m.length)).drop 14 = m := by
    rw [encodeV1_split]
    rw [show 14 + m.length = (headerV1 m p).length + m.length from by
      rw [headerV1_length]]
    rw [List.take_append, List.take_left]
    rw [List.drop_left' (by simp [headerV1_length])]
  have hpay : ((encodeV1 m p).take (14 + m.length + p.length)).drop
      (14 + m.length) = p := by
    rw [← hlen, List.take_length, encodeV1_split]
    rw [show headerV1 m p ++ (m ++ p) = (headerV1 m p ++ m) ++ p from by
      simp [List.append_assoc]]
    rw [List.drop_left' (by simp [headerV1_length])]
  unfold decodeBundle
  simp only [show HEADER_LEN = 14 from rfl, show SIGNATURE_LEN = 32 from rfl,
    hver, hml, hpl, hmagic, hlen, hman, hpay, hutf]
  rw [if_neg (by omega), if_neg (show ¬ MAGIC ≠ MAGIC from fun h => h rfl),
    if_neg (by simp), if_neg (by omega), if_pos trivial, if_neg (by omega)]

/-! ## Lemmas about byte flips and truncation -/

theorem take_set_of_le {α : Type} (a : α) {n m : Nat} (l : List α) (h : m ≤ n) :
    (l.set n a).take m = l.take m := by
  rw [List.set_take]
  exact List.set_eq_of_length_le (le_trans (List.length_take_le _ _) h)

theorem getD_set_ne {α : Type} (l : List α) (i j : Nat) (b d : α) (h : j ≠ i) :
    (l.set i b).getD j d = l.getD j d := by
  simp [List.getD_eq_getElem?_getD, List.getElem?_set_ne (Ne.symm h)]

theorem unpackU16_set (l : List Nat) (i off b : Nat) (h : off + 1 < i) :
    unpackU16 (l.set i b) off = unpackU16 l off := by
  unfold unpackU16
  rw [getD_set_ne _ _ _ _ _ (by omega), getD_set_ne _ _ _ _ _ (by omega)]

theorem unpackU32_set (l : List Nat) (i off b : Nat) (h : off + 3 < i) :
    unpackU32 (l.set i b) off = unpackU32 l off := by
  unfold unpackU32
  rw [getD_set_ne _ _ _ _ _ (by omega), getD_set_ne _ _ _ _ _ (by omega),
    getD_set_ne _ _ _ _ _ (by omega), getD_set_ne _ _ _ _ _ (by omega)]

/-- Inversion of a successful, verified (v2) decode: the header fields,
slices, UTF-8 text, exact trailing length and MAC equation it implies. -/
theorem decodeBundle_ok_v2_inv (key data : List Nat) (dec : Decoded)
    (hok : decodeBundle key data = .ok dec) (hv : dec.verified = true) :
    unpackU16 data 4 = 2 ∧ data.take 4 = MAGIC ∧
    dec.version = 2 ∧
    dec.manifestBytes = (data.take (14 + unpackU32 data 6)).drop 14 ∧
    dec.payloadBytes = (data.take (14 + unpackU32 data 6 + unpackU32 data 10)).drop
      (14 + unpackU32 data 6) ∧
    utf8Decode dec.manifestBytes = some dec.manifestText ∧
    data.length = 14 + unpackU32 data 6 + unpackU32 data 10 + 32 ∧
    dec.manifestBytes.length = unpackU32 data 6 ∧
    dec.payloadBytes.length = unpackU32 data 10 ∧
    (data.take (14 + unpackU32 data 6 + unpackU32 data 10 + 32)).drop
        (14 + unpackU32 data 6 + unpackU32 data 10) =
      hmacSha256 key (dec.manifestBytes ++ dec.payloadBytes) := by
  simp only [decodeBundle, show HEADER_LEN = 14 from rfl,
    show SIGNATURE_LEN = 32 from rfl] at hok
  split at hok
  · simp at hok
  split at hok
  · simp at hok
  split at hok
  · simp at hok
  split at hok
  · simp at hok
  split at hok
  · simp at hok
  split at hok
  · split at hok
    · simp at hok
    · injection hok with h
      subst h
      simp at hv
  · split at hok
    · simp at hok
    · split at hok
      · simp at hok
      · injection hok with h
        subst h
        rename_i hsmall hmag hver htrunc x0 text0 heq hv1 hsiglen hsigeq
        have hu2 : unpackU16 data 4 = 2 := by
          rcases not_and_or.mp hver with h | h
          · exact absurd (not_not.mp h) hv1
          · exact not_not.mp h
        have hlen : data.length = 14 + unpackU32 data 6 + unpackU32 data 10 + 32 := by
          omega
        refine ⟨hu2, not_not.mp hmag, hu2, rfl, rfl, heq, hlen, ?_, ?_,
          not_not.mp hsigeq⟩
        · simp only [List.length_drop, List.length_take]
          omega
        · simp only [List.length_drop, List.length_take]
          omega

theorem getD_drop (l : List Nat) (n j d : Nat) :
    (l.drop n).getD j d = l.getD (n + j) d := by
  simp [List.getD_eq_getElem?_getD, List.getElem?_drop]

theorem getD_set_self (l : List Nat) (j b d : Nat) (hj : j < l.length) :
    (l.set j b).getD j d = b := by
  simp [List.getD_eq_getElem?_getD, List.getElem?_set_self hj]

theorem set_ne_self (l : List Nat) (j b : Nat) (hj : j < l.length)
    (hb : b ≠ l.getD j 0) : l.set j b ≠ l := by
  intro h
  apply hb
  rw [← getD_set_self l j b 0 hj, h]

/-- C1 (amended): single-byte tampering of a verified v2 bundle.  A flip
in the 32-byte signature region always makes decode fail with
`SignatureError` (`signatureMismatch`).  A flip in the manifest or
payload region makes decode fail with `EncodingError` (`notUtf8`) when
the tampered manifest no longer decodes as UTF-8, and with
`SignatureError` whenever the recomputed HMAC of the tampered content
differs from the stored signature (HMAC collision-freedom, a
cryptographic assumption, is taken as a hypothesis).  The claim as
frozen — "always `SignatureError`" — is refuted by
`claim_C1_counterexample`: a manifest flip can break UTF-8 first,
because `parse_bundle` decodes the manifest as text before checking the
signature. -/
theorem claim_C1 (key data : List Nat) (dec : Decoded) (i b : Nat)
    (hok : decodeBundle key data = .ok dec) (hv : dec.verified = true)
    (hi : 14 ≤ i) (hil : i < data.length) (hb : b ≠ data.getD i 0) :
    (14 + dec.manifestBytes.length + dec.payloadBytes.length ≤ i →
      decodeBundle key (data.set i b) = .error .signatureMismatch) ∧
    (i < 14 + dec.manifestBytes.length + dec.payloadBytes.length →
      (utf8Decode (((data.set i b).take (14 + dec.manifestBytes.length)).drop 14) =
          none →
        decodeBundle key (data.set i b) = .error .notUtf8) ∧
      (∀ t, utf8Decode (((data.set i b).take (14 + dec.manifestBytes.length)).drop 14) =
          some t →
        hmacSha256 key ((((data.set i b).take (14 + dec.manifestBytes.length)).drop 14) ++
            (((data.set i b).take
              (14 + dec.manifestBytes.length + dec.payloadBytes.length)).drop
              (14 + dec.manifestBytes.length))) ≠
          hmacSha256 key (dec.manifestBytes ++ dec.payloadBytes) →
        decodeBundle key (data.set i b) = .error .signatureMismatch)) := by
  obtain ⟨hu2, hmagic, _hver2, hmB, hpB, hutf, hlen, hmlen, hplen, hsig⟩ :=
    decodeBundle_ok_v2_inv key data dec hok hv
  rw [hmlen, hplen]
  have F1 : (data.set i b).length = data.length := by simp
  have F2 : (data.set i b).take 4 = MAGIC := by
    rw [take_set_of_le _ _ (by omega)]; exact hmagic
  have F3 : unpackU16 (data.set i b) 4 = 2 := by
    rw [unpackU16_set _ _ _ _ (by omega)]; exact hu2
  have F4 : unpackU32 (data.set i b) 6 = unpackU32 data 6 :=
    unpackU32_set _ _ _ _ (by omega)
  have F5 : unpackU32 (data.set i b) 10 = unpackU32 data 10 :=
    unpackU32_set _ _ _ _ (by omega)
  have hsig' : data.drop (14 + unpackU32 data 6 + unpackU32 data 10) =
      hmacSha256 key (dec.manifestBytes ++ dec.payloadBytes) := by
    rw [← hsig, ← hlen, List.take_length]
  constructor
  · intro hreg
    have hm' : ((data.set i b).take (14 + unpackU32 data 6)).drop 14 =
        dec.manifestBytes := by
      rw [take_set_of_le _ _ (by omega)]; exact hmB.symm
    have hp' : ((data.set i b).take
        (14 + unpackU32 data 6 + unpackU32 data 10)).drop
        (14 + unpackU32 data 6) = dec.payloadBytes := by
      rw [take_set_of_le _ _ (by omega)]; exact hpB.symm
    have hsflip : (data.set i b).drop (14 + unpackU32 data 6 + unpackU32 data 10) =
        (data.drop (14 + unpackU32 data 6 + unpackU32 data 10)).set
          (i - (14 + unpackU32 data 6 + unpackU32 data 10)) b := by
      rw [List.drop_set, if_neg (by omega)]
    have hsne : (data.set i b).drop (14 + unpackU32 data 6 + unpackU32 data 10) ≠
        hmacSha256 key (dec.manifestBytes ++ dec.payloadBytes) := by
      rw [hsflip, ← hsig']
      apply set_ne_self
      · simp only [List.length_drop]
        omega
      · rw [getD_drop]
        have : 14 + unpackU32 data 6 + unpackU32 data 10 +
            (i - (14 + unpackU32 data 6 + unpackU32 data 10)) = i := by omega
        rw [this]
        exact hb
    unfold decodeBundle
    simp only [show HEADER_LEN = 14 from rfl, show SIGNATURE_LEN = 32 from rfl,
      F1, F2, F3, F4, F5, hlen, hm', hp', hutf]
    rw [if_neg (by omega), if_neg (show ¬ MAGIC ≠ MAGIC from fun h => h rfl),
      if_neg (by simp), if_neg (by omega), if_neg (by omega), if_neg (by omega)]
    have htake : (data.set i b).take
        (14 + unpackU32 data 6 + unpackU32 data 10 + 32) = data.set i b := by
      rw [show 14 + unpackU32 data 6 + unpackU32 data 10 + 32 =
        (data.set i b).length from by rw [F1, hlen]]
      exact List.take_length _
    rw [htake, if_pos hsne]
  · intro hreg
    have htake : (data.set i b).take
        (14 + unpackU32 data 6 + unpackU32 data 10 + 32) = data.set i b := by
      rw [show 14 + unpackU32 data 6 + unpackU32 data 10 + 32 =
        (data.set i b).length from by rw [F1, hlen]]
      exact List.take_length _
    have hsame : (data.set i b).drop (14 + unpackU32 data 6 + unpackU32 data 10) =
        hmacSha256 key (dec.manifestBytes ++ dec.payloadBytes) := by
      rw [List.drop_set_of_lt b data (by omega)]
      exact hsig'
    constructor
    · intro hnone
      unfold decodeBundle
      simp only [show HEADER_LEN = 14 from rfl, show SIGNATURE_LEN = 32 from rfl,
        F1, F2, F3, F4, F5, hlen, hnone]
      rw [if_neg (by omega), if_neg (show ¬ MAGIC ≠ MAGIC from fun h => h rfl),
        if_neg (by simp), if_neg (by omega)]
    · intro t ht hmac
      unfold decodeBundle
      simp only [show HEADER_LEN = 14 from rfl, show SIGNATURE_LEN = 32 from rfl,
        F1, F2, F3, F4, F5, hlen, ht]
      rw [if_neg (by omega), if_neg (show ¬ MAGIC ≠ MAGIC from fun h => h rfl),
        if_neg (by simp), if_neg (by omega), if_neg (by omega), if_neg (by omega)]
      rw [htake, if_pos (by rw [hsame]; exact Ne.symm hmac)]

theorem getD_take (l : List Nat) (n j d : Nat) (h : j < n) :
    (l.take n).getD j d = l.getD j d := by
  simp [List.getD_eq_getElem?_getD, List.getElem?_take_of_lt h]

theorem unpackU16_take (l : List Nat) (n off : Nat) (h : off + 1 < n) :
    unpackU16 (l.take n) off = unpackU16 l off := by
  unfold unpackU16
  rw [getD_take _ _ _ _ (by omega), getD_take _ _ _ _ (by omega)]

theorem unpackU32_take (l : List Nat) (n off : Nat) (h : off + 3 < n) :
    unpackU32 (l.take n) off = unpackU32 l off := by
  unfold unpackU32
  rw [getD_take _ _ _ _ (by omega), getD_take _ _ _ _ (by omega),
    getD_take _ _ _ _ (by omega), getD_take _ _ _ _ (by omega)]

/-- Inversion of any successful decode (either version): header facts,
manifest slice, UTF-8 text, and the exact total-length discipline of
each version. -/
theorem decodeBundle_ok_inv (key data : List Nat) (dec : Decoded)
    (hok : decodeBundle key data = .ok dec) :
    data.take 4 = MAGIC ∧
    unpackU16 data 4 = dec.version ∧
    (dec.version = 1 ∨ dec.version = 2) ∧
    14 ≤ data.length ∧
    14 + unpackU32 data 6 + unpackU32 data 10 ≤ data.length ∧
    dec.manifestBytes = (data.take (14 + unpackU32 data 6)).drop 14 ∧
    utf8Decode dec.manifestBytes = some dec.manifestText ∧
    (dec.version = 1 → data.length = 14 + unpackU32 data 6 + unpackU32 data 10) ∧
    (dec.version = 2 → data.length = 14 + unpackU32 data 6 + unpackU32 data 10 + 32) := by
  simp only [decodeBundle, show HEADER_LEN = 14 from rfl,
    show SIGNATURE_LEN = 32 from rfl] at hok
  split at hok
  · simp at hok
  split at hok
  · simp at hok
  split at hok
  · simp at hok
  split at hok
  · simp at hok
  split at hok
  · simp at hok
  split at hok
  · split at hok
    · simp at hok
    · injection hok with h
      subst h
      rename_i hsmall hmag hver htrunc x0 text0 heq hv1 htrail
      have htr := not_not.mp htrail
      exact ⟨not_not.mp hmag, rfl, Or.inl hv1, by omega, by omega, rfl, heq,
        fun _ => htr.symm, fun h2 => absurd (show unpackU16 data 4 = 2 from h2)
          (by rw [hv1]; omega)⟩
  · split at hok
    · simp at hok
    · split at hok
      · simp at hok
      · injection hok with h
        subst h
        rename_i hsmall hmag hver htrunc x0 text0 heq hv1 hsiglen hsigeq
        have hu2 : unpackU16 data 4 = 2 := by
          rcases not_and_or.mp hver with h | h
          · exact absurd (not_not.mp h) hv1
          · exact not_not.mp h
        have hsl := not_not.mp hsiglen
        exact ⟨not_not.mp hmag, rfl, Or.inr hu2, by omega, by omega, rfl, heq,
          fun h1 => absurd (show unpackU16 data 4 = 1 from h1) (by omega), fun _ => hsl.symm⟩

/-- C3 (amended): truncating a well-formed bundle strictly before its
end.  Cutting inside the 14-byte header gives `FormatError`
(`tooSmall`); cutting before `payload_end` gives `TruncatedError`;
cutting at or after `payload_end` — reachable only for v2, inside its
32-byte signature — gives `SignatureError` (`invalidSigLength`, the
spec's "wrong trailing-byte count").  A truncated prefix never decodes
successfully; the claim as frozen allowed only `TruncatedError` or
`FormatError` and is refuted by `claim_C3_counterexample`. -/
theorem claim_C3 (key data : List Nat) (dec : Decoded) (n : Nat)
    (hok : decodeBundle key data = .ok dec) (hn : n < data.length) :
    (n < 14 → decodeBundle key (data.take n) = .error .tooSmall) ∧
    (14 ≤ n → n < 14 + unpackU32 data 6 + unpackU32 data 10 →
      decodeBundle key (data.take n) = .error .truncated) ∧
    (14 + unpackU32 data 6 + unpackU32 data 10 ≤ n →
      decodeBundle key (data.take n) = .error .invalidSigLength) ∧
    (∀ d, decodeBundle key (data.take n) ≠ .ok d) := by
  obtain ⟨hmagic, hver, hver12, h14, hpe, hmB, hutf, hlen1, hlen2⟩ :=
    decodeBundle_ok_inv key data dec hok
  have hlen : (data.take n).length = n := by
    simp only [List.length_take]
    omega
  have c1 : n < 14 → decodeBundle key (data.take n) = .error .tooSmall := by
    intro h
    unfold decodeBundle
    rw [if_pos (by rw [hlen, show HEADER_LEN = 14 from rfl]; exact h)]
  have c2 : 14 ≤ n → n < 14 + unpackU32 data 6 + unpackU32 data 10 →
      decodeBundle key (data.take n) = .error .truncated := by
    intro h h2
    have T1 : (data.take n).take 4 = MAGIC := by
      rw [List.take_take, show min 4 n = 4 from by omega]
      exact hmagic
    have T2 : unpackU16 (data.take n) 4 = dec.version := by
      rw [unpackU16_take _ _ _ (by omega)]; exact hver
    have T3 : unpackU32 (data.take n) 6 = unpackU32 data 6 :=
      unpackU32_take _ _ _ (by omega)
    have T4 : unpackU32 (data.take n) 10 = unpackU32 data 10 :=
      unpackU32_take _ _ _ (by omega)
    unfold decodeBundle
    simp only [show HEADER_LEN = 14 from rfl, show SIGNATURE_LEN = 32 from rfl,
      T1, T2, T3, T4, hlen]
    rw [if_neg (by omega), if_neg (show ¬ MAGIC ≠ MAGIC from fun h => h rfl),
      if_neg (by rcases hver12 with h | h <;> simp [h]), if_pos (by omega)]
  have c3 : 14 + unpackU32 data 6 + unpackU32 data 10 ≤ n →
      decodeBundle key (data.take n) = .error .invalidSigLength := by
    intro h
    rcases hver12 with hv1 | hv2
    · exact absurd hn (by omega)
    · have hL2 := hlen2 hv2
      have T1 : (data.take n).take 4 = MAGIC := by
        rw [List.take_take, show min 4 n = 4 from by omega]
        exact hmagic
      have T2 : unpackU16 (data.take n) 4 = 2 := by
        rw [unpackU16_take _ _ _ (by omega), hver]; exact hv2
      have T3 : unpackU32 (data.take n) 6 = unpackU32 data 6 :=
        unpackU32_take _ _ _ (by omega)
      have T4 : unpackU32 (data.take n) 10 = unpackU32 data 10 :=
        unpackU32_take _ _ _ (by omega)
      have Tm : ((data.take n).take (14 + unpackU32 data 6)).drop 14 =
          dec.manifestBytes := by
        rw [List.take_take, show min (14 + unpackU32 data 6) n =
          14 + unpackU32 data 6 from by omega]
        exact hmB.symm
      unfold decodeBundle
      simp only [show HEADER_LEN = 14 from rfl, show SIGNATURE_LEN = 32 from rfl,
        T1, T2, T3, T4, hlen, Tm, hutf]
      rw [if_neg (by omega), if_neg (show ¬ MAGIC ≠ MAGIC from fun h => h rfl),
        if_neg (by simp), if_neg (by omega), if_neg (by omega), if_pos (by omega)]
  refine ⟨c1, c2, c3, fun d hd => ?_⟩
  by_cases h1 : n < 14
  · rw [c1 h1] at hd; exact Except.noConfusion hd
  · by_cases h2 : n < 14 + unpackU32 data 6 + unpackU32 data 10
    · rw [c2 (by omega) h2] at hd; exact Except.noConfusion hd
    · rw [c3 (by omega)] at hd; exact Except.noConfusion hd

/-- Decidable equality for `Except` results, so concrete decoder runs can
be checked by `decide`. -/
instance {e a : Type} [DecidableEq e] [DecidableEq a] : DecidableEq (Except e a) :=
  fun x y =>
  match x, y with
  | .ok v, .ok w =>
    if h : v = w then isTrue (by rw [h]) else isFalse (fun hh => h (by injection hh))
  | .error v, .error w =>
    if h : v = w then isTrue (by rw [h]) else isFalse (fun hh => h (by injection hh))
  | .ok _, .error _ => isFalse (fun hh => Except.noConfusion hh)
  | .error _, .ok _ => isFalse (fun hh => Except.noConfusion hh)

/-! ## Concrete sample data

A small signed bundle (key `b"k"`, a two-line manifest, an ELF-like
payload) used by the witnesses and counterexamples.  Its layout:
bytes 0–13 header, 14–41 manifest, 42–45 payload, 46–77 signature. -/

def sampleKey : List Nat := [107]

def sampleManifestText : List Char := "name = \"a\"\nversion = \"1.2.0\"".toList

def sampleManifest : List Nat := utf8Encode sampleManifestText

def samplePayload : List Nat := [127, 69, 76, 70]

def sampleBundle : List Nat := buildBundle sampleManifest samplePayload sampleKey

/-- C1, counterexample to the frozen claim: `sampleBundle` decodes with
`verified = true`; flipping its first manifest byte (`'n'`, offset 14)
to `0xFF` makes the manifest invalid UTF-8, and decode fails with
`EncodingError` (`notUtf8`) — not `SignatureError` — because
`parse_bundle` decodes the manifest as text before the signature
check. -/
theorem claim_C1_counterexample :
    decodeBundle sampleKey sampleBundle =
      .ok ⟨2, sampleManifest, samplePayload, sampleManifestText, true⟩ ∧
    decodeBundle sampleKey (sampleBundle.set 14 255) = .error .notUtf8 ∧
    BundleError.notUtf8.isSignatureError = false := by
  refine ⟨by decide, by decide, rfl⟩

/-- C1, witness: the two tamper cases of `claim_C1` at concrete inputs —
flipping the last signature byte (offset 77) to `0`, and flipping the
first manifest byte `'n'` to `'m'` (offset 14, still UTF-8, MAC now
differs) — both fail with `signatureMismatch`. -/
theorem claim_C1_witness :
    decodeBundle sampleKey (sampleBundle.set 77 0) = .error .signatureMismatch ∧
    decodeBundle sampleKey (sampleBundle.set 14 109) = .error .signatureMismatch := by
  constructor
  · exact (claim_C1 sampleKey sampleBundle
      ⟨2, sampleManifest, samplePayload, sampleManifestText, true⟩ 77 0
      (by decide) rfl (by decide) (by decide) (by decide)).1 (by decide)
  · exact ((claim_C1 sampleKey sampleBundle
      ⟨2, sampleManifest, samplePayload, sampleManifestText, true⟩ 14 109
      (by decide) rfl (by decide) (by decide) (by decide)).2 (by decide)).2
      ("mame = \"a\"\nversion = \"1.2.0\"".toList) (by decide) (by decide)

/-- C2 (amended): the round trip.  For any key and any non-empty
manifest and payload byte strings whose lengths fit the u32 header
fields and whose manifest bytes decode as UTF-8 (`parse_bundle` decodes
the manifest as text, so a non-UTF-8 manifest cannot round-trip — see
`claim_C2_counterexample`), decoding the signed encoding returns exactly
the original manifest bytes, payload bytes and `verified = true`
(version 2), and decoding the unsigned encoding returns the same bytes
with `verified = false` (version 1; the unsigned encoder is modelled
from the spec, the repository shipping only the signing packer). -/
theorem claim_C2 (key m p : List Nat) (text : List Char)
    (hm0 : m ≠ []) (hp0 : p ≠ [])
    (hm : m.length < 2 ^ 32) (hp : p.length < 2 ^ 32)
    (hutf : utf8Decode m = some text) :
    decodeBundle key (buildBundle m p key) = .ok ⟨2, m, p, text, true⟩ ∧
    decodeBundle key (encodeV1 m p) = .ok ⟨1, m, p, text, false⟩ :=
  ⟨decodeBundle_buildBundle key m p text hm hp hutf,
   decodeBundle_encodeV1 key m p text hm hp hutf⟩

/-- C2, witness: the round trip at the sample bundle, both versions. -/
theorem claim_C2_witness :
    decodeBundle sampleKey (buildBundle sampleManifest samplePayload sampleKey) =
      .ok ⟨2, sampleManifest, samplePayload, sampleManifestText, true⟩ ∧
    decodeBundle sampleKey (encodeV1 sampleManifest samplePayload) =
      .ok ⟨1, sampleManifest, samplePayload, sampleManifestText, false⟩ :=
  claim_C2 sampleKey sampleManifest samplePayload sampleManifestText
    (by decide) (by decide) (by decide) (by decide) (by decide)

/-- C2, counterexample to the frozen claim: the non-empty manifest
`[0xFF]` is not valid UTF-8, so its encoding does not decode back —
decode fails with `EncodingError` (`notUtf8`) instead of succeeding. -/
theorem claim_C2_counterexample :
    ([255] : List Nat) ≠ [] ∧ ([0] : List Nat) ≠ [] ∧
    decodeBundle [107] (buildBundle [255] [0] [107]) = .error .notUtf8 := by
  refine ⟨by decide, by decide, by decide⟩

/-- C4: the encoder's layout.  With a signing key, `encode` emits the
14-byte header (magic `"RMOD"`, little-endian u16 version 2,
little-endian u32 manifest and payload lengths) then manifest, payload
and a 32-byte MAC — exactly the repository's `build_bundle`; with no
key (spec-modelled branch) the header carries version 1 and no MAC
follows; an empty manifest or payload fails with `EmptyInputError`. -/
theorem claim_C4 :
    (∀ m p k : List Nat, m ≠ [] → p ≠ [] →
      encode m p (some k) =
        .ok (MAGIC ++ packU16 2 ++ packU32 m.length ++ packU32 p.length ++
          m ++ p ++ hmacSha256 k (m ++ p))) ∧
    (∀ m p : List Nat, m ≠ [] → p ≠ [] →
      encode m p none =
        .ok (MAGIC ++ packU16 1 ++ packU32 m.length ++ packU32 p.length ++
          m ++ p)) ∧
    (∀ k mp : List Nat, (hmacSha256 k mp).length = 32) ∧
    MAGIC = "RMOD".toList.map Char.toNat ∧
    (∀ m p : List Nat,
      (MAGIC ++ packU16 2 ++ packU32 m.length ++ packU32 p.length).length = 14 ∧
      (MAGIC ++ packU16 1 ++ packU32 m.length ++ packU32 p.length).length = 14) ∧
    (∀ (m p : List Nat) (k : Option (List Nat)), m = [] ∨ p = [] →
      ∃ e, encode m p k = .error e) ∧
    (∀ m p k : List Nat, encode m p (some k) = packBundle m p k) := by
  refine ⟨?_, ?_, hmacSha256_length, by decide, ?_, ?_, encode_some_eq_packBundle⟩
  · intro m p k hm hp
    simp [encode, buildBundle, hm, hp]
  · intro m p hm hp
    simp [encode, encodeV1, hm, hp]
  · intro m p
    constructor <;> simp [MAGIC, packU16, packU32]
  · intro m p k h
    rcases h with h | h
    · subst h
      exact ⟨.emptyManifest, rfl⟩
    · subst h
      by_cases hm2 : m.isEmpty
      · exact ⟨.emptyManifest, by simp [encode, hm2]⟩
      · exact ⟨.emptyPayload, by simp [encode, hm2]⟩

/-- C4, witness: the layout at a concrete signed encoding, and
`EmptyInputError` at an empty manifest. -/
theorem claim_C4_witness :
    encode [1] [2] (some [3]) =
      .ok (MAGIC ++ packU16 2 ++ packU32 ([1] : List Nat).length ++
        packU32 ([2] : List Nat).length ++ [1] ++ [2] ++
        hmacSha256 [3] ([1] ++ [2])) ∧
    (∃ e, encode ([] : List Nat) [2] (some [3]) = .error e) :=
  ⟨claim_C4.1 [1] [2] [3] (by decide) (by decide),
   claim_C4.2.2.2.2.2.1 [] [2] (some [3]) (Or.inl rfl)⟩

/-- C3, counterexample to the frozen claim: truncating the sample bundle
one byte short (inside its signature) fails with `SignatureError`
(`invalidSigLength`) — neither `TruncatedError` nor `FormatError`. -/
theorem claim_C3_counterexample :
    decodeBundle sampleKey (sampleBundle.take 77) = .error .invalidSigLength ∧
    BundleError.invalidSigLength.isSignatureError = true ∧
    BundleError.invalidSigLength.isFormatError = false ∧
    BundleError.invalidSigLength ≠ BundleError.truncated := by
  refine ⟨by decide, rfl, rfl, by decide⟩

/-- C3, witness: the three truncation regions of `claim_C3` at the
sample bundle — header cut, body cut, signature cut — and the
never-succeeds conclusion. -/
theorem claim_C3_witness :
    decodeBundle sampleKey (sampleBundle.take 7) = .error .tooSmall ∧
    decodeBundle sampleKey (sampleBundle.take 20) = .error .truncated ∧
    decodeBundle sampleKey (sampleBundle.take 77) = .error .invalidSigLength ∧
    ∀ d, decodeBundle sampleKey (sampleBundle.take 20) ≠ .ok d := by
  have h7 := claim_C3 sampleKey sampleBundle
    ⟨2, sampleManifest, samplePayload, sampleManifestText, true⟩ 7
    (by decide) (by decide)
  have h20 := claim_C3 sampleKey sampleBundle
    ⟨2, sampleManifest, samplePayload, sampleManifestText, true⟩ 20
    (by decide) (by decide)
  have h77 := claim_C3 sampleKey sampleBundle
    ⟨2, sampleManifest, samplePayload, sampleManifestText, true⟩ 77
    (by decide) (by decide)
  exact ⟨h7.1 (by decide), h20.2.1 (by decide) (by decide),
    h77.2.2.1 (by decide), h20.2.2.2⟩

/-! ## Split/join lemmas

`splitAll sep` and `joinSep sep` are mutually inverse (under the usual
side conditions); these lemmas let the regex recognizers be proved
equivalent to the direct reading of each anchored pattern. -/

theorem splitAll_ne_nil (sep : Char) (cs : List Char) : splitAll sep cs ≠ [] := by
  induction cs with
  | nil => simp [splitAll]
  | cons c rest ih =>
    by_cases hc : c = sep
    · simp [splitAll, hc]
    · simp only [splitAll, if_neg hc]
      cases h : splitAll sep rest <;> simp

theorem joinSep_cons (sep : Char) (s : List Char) (rest : List (List Char))
    (h : rest ≠ []) : joinSep sep (s :: rest) = s ++ sep :: joinSep sep rest := by
  cases rest with
  | nil => exact absurd rfl h
  | cons t ts => rfl

theorem joinSep_splitAll (sep : Char) (cs : List Char) :
    joinSep sep (splitAll sep cs) = cs := by
  induction cs with
  | nil => rfl
  | cons c rest ih =>
    by_cases hc : c = sep
    · rw [show splitAll sep (c :: rest) = [] :: splitAll sep rest from by
        simp [splitAll, hc]]
      rw [joinSep_cons _ _ _ (splitAll_ne_nil sep rest), ih, hc]
      rfl
    · simp only [splitAll, if_neg hc]
      cases h : splitAll sep rest with
      | nil => exact absurd h (splitAll_ne_nil sep rest)
      | cons s ss =>
        cases ss with
        | nil =>
          have hs : s = rest := by
            have := ih
            rw [h] at this
            simpa [joinSep] using this
          simp [joinSep, hs]
        | cons t ts =>
          have ihr : s ++ sep :: joinSep sep (t :: ts) = rest := by
            have := ih
            rw [h, joinSep_cons _ _ _ (by simp)] at this
            exact this
          rw [joinSep_cons _ _ _ (by simp)]
          simp only [List.cons_append, ihr]

theorem splitAll_parts (sep : Char) (cs : List Char) :
    ∀ p ∈ splitAll sep cs, sep ∉ p := by
  induction cs with
  | nil =>
    intro p hp
    simp only [splitAll, List.mem_singleton] at hp
    subst hp
    simp
  | cons c rest ih =>
    intro p hp
    by_cases hc : c = sep
    · simp only [splitAll, if_pos hc, List.mem_cons] at hp
      rcases hp with h | h
      · subst h; simp
      · exact ih p h
    · simp only [splitAll, if_neg hc] at hp
      cases h : splitAll sep rest with
      | nil => exact absurd h (splitAll_ne_nil sep rest)
      | cons s ss =>
        rw [h] at hp
        simp only [List.mem_cons] at hp
        rcases hp with h1 | h1
        · subst h1
          intro hm
          rcases List.mem_cons.mp hm with h2 | h2
          · exact hc h2.symm
          · exact ih s (by rw [h]; simp) h2
        · exact ih p (by rw [h]; simp [h1])

theorem splitAll_single (sep : Char) (t : List Char) (h : sep ∉ t) :
    splitAll sep t = [t] := by
  induction t with
  | nil => rfl
  | cons c r ih =>
    have hc : ¬ c = sep := fun e => h (by simp [e])
    have hr : sep ∉ r := fun hm => h (by simp [hm])
    simp only [splitAll, if_neg hc, ih hr]

theorem splitAll_append_sep (sep : Char) (t z : List Char) (h : sep ∉ t) :
    splitAll sep (t ++ sep :: z) = t :: splitAll sep z := by
  induction t with
  | nil => simp [splitAll]
  | cons c r ih =>
    have hc : ¬ c = sep := fun e => h (by simp [e])
    have hr : sep ∉ r := fun hm => h (by simp [hm])
    simp only [List.cons_append, splitAll, if_neg hc, List.append_eq, ih hr]

theorem splitAll_joinSep (sep : Char) (segs : List (List Char)) (h0 : segs ≠ [])
    (h : ∀ t ∈ segs, sep ∉ t) : splitAll sep (joinSep sep segs) = segs := by
  induction segs with
  | nil => exact absurd rfl h0
  | cons t rest ih =>
    cases rest with
    | nil => exact splitAll_single sep t (h t (by simp))
    | cons u us =>
      rw [joinSep_cons _ _ _ (by simp),
        splitAll_append_sep _ _ _ (h t (by simp)),
        ih (by simp) (fun x hx => h x (by simp [hx]))]

theorem mem_joinSep (sep : Char) (segs : List (List Char)) (c : Char)
    (hc : c ∈ joinSep sep segs) : c = sep ∨ ∃ t ∈ segs, c ∈ t := by
  induction segs with
  | nil => simp [joinSep] at hc
  | cons t rest ih =>
    cases rest with
    | nil => exact Or.inr ⟨t, by simp, hc⟩
    | cons u us =>
      rw [joinSep_cons _ _ _ (by simp)] at hc
      rcases List.mem_append.mp hc with h | h
      · exact Or.inr ⟨t, by simp, h⟩
      · rcases List.mem_cons.mp h with h | h
        · exact Or.inl h
        · rcases ih h with h | ⟨x, hx, hcx⟩
          · exact Or.inl h
          · exact Or.inr ⟨x, List.mem_cons_of_mem _ hx, hcx⟩

/-- The language of a regex of the shape `seg(?:SEPseg)*` — where `seg`
is one-or-more characters of a class `P` not containing the separator —
coincides with the executable split-based recognizer. -/
theorem splitAll_all_iff (sep : Char) (P : Char → Bool) (hsep : P sep = false)
    (s : List Char) :
    (splitAll sep s).all (fun p => !p.isEmpty && p.all P) = true ↔
      ∃ segs, segs ≠ [] ∧ (∀ t ∈ segs, t ≠ [] ∧ ∀ c ∈ t, P c = true) ∧
        s = joinSep sep segs := by
  constructor
  · intro h
    refine ⟨splitAll sep s, splitAll_ne_nil sep s, ?_,
      (joinSep_splitAll sep s).symm⟩
    intro t ht
    have := List.all_eq_true.mp h t ht
    simp only [Bool.and_eq_true, Bool.not_eq_true', List.isEmpty_eq_false] at this
    exact ⟨this.1, List.all_eq_true.mp this.2⟩
  · rintro ⟨segs, h0, hP, rfl⟩
    rw [splitAll_joinSep sep segs h0 (fun t ht hm => by
      have hz := (hP t ht).2 sep hm
      rw [hsep] at hz
      exact Bool.noConfusion hz)]
    rw [List.all_eq_true]
    intro t ht
    obtain ⟨h1, h2⟩ := hP t ht
    simp only [Bool.and_eq_true, Bool.not_eq_true', List.isEmpty_eq_false]
    exact ⟨h1, List.all_eq_true.mpr h2⟩

/-! ## Regex recognizers agree with the direct pattern readings -/

theorem chopLit_eq_some (pre s r : List Char) :
    chopLit pre s = some r ↔ s = pre ++ r := by
  constructor
  · intro h
    unfold chopLit at h
    split at h
    · rename_i ht
      injection h with h
      rw [← ht, ← h, List.take_append_drop]
    · exact Option.noConfusion h
  · rintro rfl
    unfold chopLit
    rw [if_pos (List.take_left _ _), List.drop_left]

theorem dottedMatch_iff (s : List Char) :
    dottedMatch s = true ↔ DottedLang s := by
  unfold dottedMatch DottedLang SegStr
  exact splitAll_all_iff '.' isSegChar (by decide) s

theorem moduleReMatch_iff_chars (s : List Char) :
    moduleReMatch s = true ↔ (s ≠ [] ∧ ∀ c ∈ s, isSegChar c = true) := by
  unfold moduleReMatch
  simp [List.all_eq_true, List.isEmpty_eq_false]

theorem moduleReLang_iff_match (s : List Char) :
    ModuleReLang s ↔ moduleReMatch s = true := by
  rw [moduleReMatch_iff_chars]
  constructor
  · rintro ⟨segs, h0, hseg, rfl⟩
    constructor
    · cases segs with
      | nil => exact absurd rfl h0
      | cons t rest =>
        cases rest with
        | nil => exact (hseg t (by simp)).1
        | cons u us =>
          rw [joinSep_cons _ _ _ (by simp)]
          have := (hseg t (by simp)).1
          cases t with
          | nil => exact absurd rfl this
          | cons a as => simp
    · intro c hc
      rcases mem_joinSep _ _ _ hc with h | ⟨t, ht, hct⟩
      · subst h; decide
      · exact (hseg t ht).2 c hct
  · rintro ⟨h0, hall⟩
    exact ⟨[s], by simp, by simpa [SegStr] using ⟨h0, hall⟩, rfl⟩

theorem moduleSlotReMatch_iff (s : List Char) :
    moduleSlotReMatch s = true ↔ ModuleSlotReLang s := by
  unfold moduleSlotReMatch ModuleSlotReLang
  constructor
  · intro h
    cases hc : chopLit "ruzzle.slot.".toList s with
    | none => rw [hc] at h; exact Bool.noConfusion h
    | some rest =>
      rw [hc] at h
      exact ⟨rest, (dottedMatch_iff rest).mp h, (chopLit_eq_some _ _ _).mp hc⟩
  · rintro ⟨body, hbody, rfl⟩
    rw [show chopLit "ruzzle.slot.".toList ("ruzzle.slot.".toList ++ body) =
      some body from (chopLit_eq_some _ _ _).mpr rfl]
    exact (dottedMatch_iff body).mpr hbody

theorem slotContractReMatch_iff (s : List Char) :
    slotContractReMatch s = true ↔ SlotContractReLang s := by
  unfold slotContractReMatch SlotContractReLang
  constructor
  · intro h
    cases hc : chopLit "ruzzle.slot.".toList s with
    | none => simp only [hc] at h; exact Bool.noConfusion h
    | some rest =>
      simp only [hc] at h
      cases hsp : splitAll '@' rest with
      | nil => exact absurd hsp (splitAll_ne_nil _ _)
      | cons body ss =>
        cases ss with
        | nil => simp only [hsp] at h; exact Bool.noConfusion h
        | cons rev ss2 =>
          cases ss2 with
          | cons _ _ => simp only [hsp] at h; exact Bool.noConfusion h
          | nil =>
            simp only [hsp, Bool.and_eq_true, Bool.not_eq_true',
              List.isEmpty_eq_false] at h
            obtain ⟨⟨hb, hrev0⟩, hrevd⟩ := h
            have hrest : rest = body ++ '@' :: rev := by
              have hjs := joinSep_splitAll '@' rest
              rw [hsp] at hjs
              rw [← hjs, joinSep_cons _ _ _ (by simp)]
              rfl
            refine ⟨body, rev, (dottedMatch_iff body).mp hb, hrev0,
              List.all_eq_true.mp hrevd, ?_⟩
            rw [(chopLit_eq_some _ _ _).mp hc, hrest]
            simp [List.append_assoc]
  · rintro ⟨body, rev, hbody, hrev0, hrevd, rfl⟩
    rw [List.append_assoc]
    rw [show chopLit "ruzzle.slot.".toList
        ("ruzzle.slot.".toList ++ (body ++ '@' :: rev)) = some (body ++ '@' :: rev)
      from (chopLit_eq_some _ _ _).mpr rfl]
    have hnb : '@' ∉ body := by
      intro hm
      obtain ⟨segs, h0, hseg, hj⟩ := hbody
      rw [hj] at hm
      rcases mem_joinSep _ _ _ hm with h | ⟨t, ht, hct⟩
      · exact absurd h (by decide)
      · have := (hseg t ht).2 '@' hct
        exact absurd this (by decide)
    have hnr : '@' ∉ rev := by
      intro hm
      have := hrevd '@' hm
      exact absurd this (by decide)
    have hsp : splitAll '@' (body ++ '@' :: rev) = [body, rev] := by
      have := splitAll_joinSep '@' [body, rev] (by simp) (by
        intro t ht
        rcases List.mem_cons.mp ht with h | h
        · subst h; exact hnb
        · rcases List.mem_cons.mp h with h | h
          · subst h; exact hnr
          · simp at h)
      rw [joinSep_cons _ _ _ (by simp)] at this
      simpa [joinSep] using this
    simp only [hsp, Bool.and_eq_true, Bool.not_eq_true', List.isEmpty_eq_false]
    exact ⟨⟨(dottedMatch_iff body).mpr hbody, hrev0⟩, List.all_eq_true.mpr hrevd⟩

theorem versionReMatch_lang (s : List Char) (h : versionReMatch s = true) :
    VersionReLang s := by
  unfold versionReMatch at h
  split at h
  case h_2 => exact Bool.noConfusion h
  rename_i t1 h1
  split at h
  case h_2 => exact Bool.noConfusion h
  rename_i t2 h2
  simp only [Bool.and_eq_true, Bool.not_eq_true', List.isEmpty_eq_false] at h
  obtain ⟨⟨⟨ha, hb⟩, hc⟩, htail⟩ := h
  refine ⟨s.takeWhile isDigitChar, t1.takeWhile isDigitChar,
    t2.takeWhile isDigitChar, t2.dropWhile isDigitChar,
    ha, fun x hx => List.mem_takeWhile_imp hx,
    hb, fun x hx => List.mem_takeWhile_imp hx,
    hc, fun x hx => List.mem_takeWhile_imp hx, ?_, ?_⟩
  · cases h3 : t2.dropWhile isDigitChar with
    | nil => exact Or.inl rfl
    | cons c3 t3 =>
      rw [h3] at htail
      unfold versionTail at htail
      simp only [Bool.and_eq_true, Bool.not_eq_true',
        List.isEmpty_eq_false, Bool.or_eq_true, beq_iff_eq] at htail
      exact Or.inr ⟨c3, t3, rfl, htail.1.1, htail.1.2,
        List.all_eq_true.mp htail.2⟩
  · conv_lhs => rw [← List.takeWhile_append_dropWhile (p := isDigitChar)
      (l := s), h1]
    conv_lhs => rw [show t1 = t1.takeWhile isDigitChar ++
      t1.dropWhile isDigitChar from
        (List.takeWhile_append_dropWhile _ _).symm, h2]
    conv_lhs => rw [show t2 = t2.takeWhile isDigitChar ++
      t2.dropWhile isDigitChar from
        (List.takeWhile_append_dropWhile _ _).symm]
    simp [List.append_assoc]

/-! ## Lint-claim helper lemmas -/

theorem parseString_error (v : List Char) (e : GrammarError)
    (h : parseString v = .error e) : e = .invalidString := by
  simp only [parseString] at h
  split at h
  · injection h with h
    exact h.symm
  · exact Except.noConfusion h

theorem parseItems_error_empty (l : List (List Char))
    (h : parseItems l = .error .emptyListItem) : ∃ x ∈ l, pyStrip x = [] := by
  induction l with
  | nil => simp [parseItems] at h
  | cons raw rest ih =>
    simp only [parseItems] at h
    by_cases hemp : (pyStrip raw).isEmpty
    · exact ⟨raw, by simp, List.isEmpty_iff.mp hemp⟩
    · rw [if_neg (by simpa using hemp)] at h
      cases hps : parseString (pyStrip raw) with
      | error e =>
        simp only [hps] at h
        injection h with h
        subst h
        exact absurd (parseString_error _ _ hps)
          (by intro hx; exact GrammarError.noConfusion hx)
      | ok sv =>
        simp only [hps] at h
        cases hrec : parseItems rest with
        | error e2 =>
          simp only [hrec] at h
          injection h with h
          subst h
          obtain ⟨x, hx, hxe⟩ := ih hrec
          exact ⟨x, by simp [hx], hxe⟩
        | ok ss =>
          simp only [hrec] at h
          exact Except.noConfusion h

theorem pyStrip_eq_nil_of_all (l : List Char)
    (h : ∀ c ∈ l, pyIsSpace c = true) : pyStrip l = [] := by
  unfold pyStrip
  rw [List.dropWhile_eq_nil_iff.mpr (fun a ha => h a ha)]
  rfl

/-- C10: `parse_list` on a blank interior.  A bracketed value whose
interior is empty or all whitespace parses to the empty list; the
`empty list item` error arises only from a non-blank interior one of
whose comma segments strips to nothing. -/
theorem claim_C10 :
    (∀ cs inner, pyStrip cs = '[' :: inner ++ [']'] →
      (∀ c ∈ inner, pyIsSpace c = true) → parseList cs = .ok []) ∧
    (∀ cs, parseList cs = .error .emptyListItem →
      pyStrip (((pyStrip cs).drop 1).dropLast) ≠ [] ∧
      ∃ seg ∈ splitAll ',' (pyStrip (((pyStrip cs).drop 1).dropLast)),
        pyStrip seg = []) := by
  constructor
  · intro cs inner hv hsp
    simp only [parseList, hv]
    by_cases hinner : inner = []
    · subst hinner
      simp
    · rw [if_neg (by
        intro h
        have hlen := congrArg List.length h
        simp at hlen
        exact hinner hlen)]
      rw [if_neg (by
        rw [show ('[' :: inner ++ [']'] : List Char).getLast? = some ']' from by
          rw [show ('[' :: inner ++ [']'] : List Char) =
            ('[' :: inner) ++ [']'] from by simp, List.getLast?_concat]]
        simp)]
      rw [show (('[' :: inner ++ [']'] : List Char).drop 1).dropLast = inner from by
        simp [List.dropLast_concat]]
      rw [pyStrip_eq_nil_of_all inner hsp]
      rfl
  · intro cs h
    simp only [parseList] at h
    split at h
    · exact Except.noConfusion h
    · split at h
      · injection h with h
        exact absurd h (by intro hx; exact GrammarError.noConfusion hx)
      · split at h
        · exact Except.noConfusion h
        · rename_i hne
          exact ⟨fun hnil => hne (by simpa using List.isEmpty_iff.mpr hnil),
            parseItems_error_empty _ h⟩

/-- C9: the slot grammars.  In the slot-contract variant (`slot_lint.py`)
the slot check accepts exactly the dotted `ruzzle.slot.` identifiers
with a mandatory `@<digits>` revision suffix; in the module-manifest
variant (`module_lint.py`) the grammar is the same without the suffix.
The spec's two examples validate and fail accordingly. -/
theorem claim_C9 :
    (∀ s, slotContractReMatch s = true ↔ SlotContractReLang s) ∧
    (∀ s, moduleSlotReMatch s = true ↔ ModuleSlotReLang s) ∧
    lintContract ("slot = \"ruzzle.slot.display.primary@1\"\nsummary = \"Primary display\"".toList) = [] ∧
    lintContract ("slot = \"ruzzle.slot.display.primary\"\nsummary = \"Primary display\"".toList) =
      [.diag (.invalidSlot "ruzzle.slot.display.primary".toList)] ∧
    slotContractReMatch "ruzzle.slot.display.primary@1".toList = true ∧
    slotContractReMatch "ruzzle.slot.display.primary".toList = false ∧
    moduleSlotReMatch "ruzzle.slot.display.primary".toList = true ∧
    moduleSlotReMatch "ruzzle.slot.display.primary@1".toList = false := by
  refine ⟨slotContractReMatch_iff, moduleSlotReMatch_iff, by decide, by decide,
    by decide, by decide, by decide, by decide⟩

/-! ## C5/C6: module-name grammar and schema completeness -/

/-- Lowercase ASCII letters and digits — the segment alphabet of the
spec's module-name grammar, which (unlike `SEGMENT_RE`) has no hyphen
inside a segment. -/
def isAlnumLower (c : Char) : Bool :=
  (97 ≤ c.toNat && c.toNat ≤ 122) || (48 ≤ c.toNat && c.toNat ≤ 57)

/-- The spec's module-name grammar read literally: non-empty lowercase
alphanumeric segments joined by single hyphens.  (A second definition
following the spec's words, for comparison with `MODULE_RE`.) -/
def SpecModuleName (s : List Char) : Prop :=
  ∃ segs : List (List Char), segs ≠ [] ∧
    (∀ t ∈ segs, t ≠ [] ∧ ∀ c ∈ t, isAlnumLower c = true) ∧
    s = joinSep '-' segs

def specModuleNameMatch (s : List Char) : Bool :=
  (splitAll '-' s).all (fun p => !p.isEmpty && p.all isAlnumLower)

theorem specModuleName_iff (s : List Char) :
    specModuleNameMatch s = true ↔ SpecModuleName s := by
  unfold specModuleNameMatch SpecModuleName
  exact splitAll_all_iff '-' isAlnumLower (by decide) s

theorem ite_singleton_nil {α : Type} (b : Prop) [Decidable b] (x : α)
    (h : (if b then [x] else []) = ([] : List α)) : ¬ b := by
  intro hb
  rw [if_pos hb] at h
  exact List.noConfusion h

/-- C5 (amended): the module-name check and the clean-lint invariant.
`MODULE_RE`'s language is exactly the non-empty strings over
`[a-z0-9-]` — because its segment class itself contains the hyphen, the
"joined by single hyphens" structure adds nothing.  Consequently a
manifest that lints with zero diagnostics has: a name that, when
non-empty, matches `MODULE_RE` (not the stricter alnum-segment grammar —
and an empty name can lint clean, see the counterexample); and a
version that, when non-empty, matches `VERSION_RE`. -/
theorem claim_C5 (text : List Char) (d : ManifestData)
    (hparse : parseManifest text = .ok d)
    (hclean : lintManifest text = []) :
    (∀ s, ModuleReLang s ↔ (s ≠ [] ∧ ∀ c ∈ s, isSegChar c = true)) ∧
    (getStrD d "name".toList ≠ [] → ModuleReLang (getStrD d "name".toList)) ∧
    (getStrD d "version".toList ≠ [] →
      VersionReLang (getStrD d "version".toList)) := by
  have hnil : lintManifestData d = [] := by
    unfold lintManifest at hclean
    rw [hparse] at hclean
    exact List.map_eq_nil.mp hclean
  unfold lintManifestData at hnil
  simp only [List.append_eq_nil] at hnil
  obtain ⟨⟨⟨⟨⟨⟨_, _⟩, hname⟩, hver⟩, _⟩, _⟩, _⟩ := hnil
  refine ⟨fun s => (moduleReLang_iff_match s).trans (moduleReMatch_iff_chars s),
    ?_, ?_⟩
  · intro hn
    have hc := ite_singleton_nil _ _ hname
    rw [(moduleReLang_iff_match _)]
    by_cases hm : moduleReMatch (getStrD d "name".toList) = true
    · exact hm
    · exact absurd (by
        simp only [Bool.and_eq_true, Bool.not_eq_true', List.isEmpty_eq_false]
        exact ⟨hn, by simpa using hm⟩) hc
  · intro hn
    have hc := ite_singleton_nil _ _ hver
    apply versionReMatch_lang
    by_cases hm : versionReMatch (getStrD d "version".toList) = true
    · exact hm
    · exact absurd (by
        simp only [Bool.and_eq_true, Bool.not_eq_true', List.isEmpty_eq_false]
        exact ⟨hn, by simpa using hm⟩) hc

/-- C5, counterexample to the frozen claim, both halves: `MODULE_RE`
accepts `"a--b"`, which is not lowercase alphanumeric segments joined by
single hyphens; and the manifest `name = ""` / `version = ""` lints with
zero diagnostics although its empty name matches neither the claimed
grammar nor even `MODULE_RE`. -/
theorem claim_C5_counterexample :
    moduleReMatch "a--b".toList = true ∧
    ¬ SpecModuleName "a--b".toList ∧
    lintManifest ("name = \"\"\nversion = \"\"".toList) = [] ∧
    ¬ ModuleReLang [] := by
  refine ⟨by decide, ?_, by decide, ?_⟩
  · intro h
    have := (specModuleName_iff _).mpr h
    exact absurd this (by decide)
  · intro h
    have := (moduleReLang_iff_match _).mp h
    exact absurd this (by decide)

/-- C5, witness: the clean manifest `name = "term-shell"`,
`version = "1.2.0"` — its name is in `MODULE_RE`'s language and its
version in `VERSION_RE`'s. -/
theorem claim_C5_witness :
    ModuleReLang (getStrD
      [("name".toList, .str "term-shell".toList),
       ("version".toList, .str "1.2.0".toList)] "name".toList) ∧
    VersionReLang (getStrD
      [("name".toList, .str "term-shell".toList),
       ("version".toList, .str "1.2.0".toList)] "version".toList) := by
  have h := claim_C5 ("name = \"term-shell\"\nversion = \"1.2.0\"".toList)
    [("name".toList, .str "term-shell".toList),
     ("version".toList, .str "1.2.0".toList)]
    (by decide) (by decide)
  exact ⟨h.2.1 (by decide), h.2.2 (by decide)⟩

/-- C6: schema completeness on the spec's example shape.  A parsed
manifest carrying a present-but-invalid name, a present-but-invalid
version and an unknown capability receives at least three diagnostics —
the validator collects all violations instead of stopping at the
first. -/
theorem claim_C6 (text : List Char) (d : ManifestData)
    (caps : List (List Char)) (c0 : List Char)
    (hparse : parseManifest text = .ok d)
    (hn : getStrD d "name".toList ≠ [])
    (hnm : moduleReMatch (getStrD d "name".toList) = false)
    (hv : getStrD d "version".toList ≠ [])
    (hvm : versionReMatch (getStrD d "version".toList) = false)
    (hcaps : getValD d "requires_caps".toList (.list []) = .list caps)
    (hc0 : c0 ∈ caps) (hbad : capabilities.contains c0 = false) :
    3 ≤ (lintManifest text).length := by
  have hlen : (lintManifest text).length = (lintManifestData d).length := by
    unfold lintManifest
    rw [hparse, List.length_map]
  rw [hlen]
  simp only [lintManifestData]
  rw [show (!(getStrD d "name".toList).isEmpty &&
      !moduleReMatch (getStrD d "name".toList)) = true from by
    simp only [Bool.and_eq_true, Bool.not_eq_true', List.isEmpty_eq_false]
    exact ⟨hn, hnm⟩]
  rw [show (!(getStrD d "version".toList).isEmpty &&
      !versionReMatch (getStrD d "version".toList)) = true from by
    simp only [Bool.and_eq_true, Bool.not_eq_true', List.isEmpty_eq_false]
    exact ⟨hv, hvm⟩]
  rw [hcaps]
  have hcapmem : Diag.unknownCap c0 ∈ caps.filterMap (fun c =>
      if !capabilities.contains c then some (.unknownCap c) else none) :=
    List.mem_filterMap.mpr ⟨c0, hc0, by rw [hbad]; rfl⟩
  have hcaplen := List.length_pos.mpr (List.ne_nil_of_mem hcapmem)
  simp only [if_true, List.length_append, List.length_cons, List.length_nil]
  omega

/-- C6, witness: the manifest with a bad name, a bad version and one
unknown capability yields at least three diagnostics (in fact exactly
three). -/
theorem claim_C6_witness :
    3 ≤ (lintManifest ("name = \"Bad Name\"\nversion = \"x.y\"\nrequires_caps = [\"Nope\"]".toList)).length := by
  exact claim_C6 _
    [("name".toList, .str "Bad Name".toList),
     ("version".toList, .str "x.y".toList),
     ("requires_caps".toList, .list ["Nope".toList])]
    ["Nope".toList] "Nope".toList
    (by decide) (by decide) (by decide) (by decide) (by decide) (by decide)
    (by decide) (by decide)

/-- C10, witness: `"[ ]"` parses to the empty list, and the
`empty list item` error on `"[ , \"a\"]"` does come from a blank comma
segment of a non-blank interior. -/
theorem claim_C10_witness :
    parseList "[ ]".toList = .ok [] ∧
    (pyStrip (((pyStrip "[ , \"a\"]".toList).drop 1).dropLast) ≠ [] ∧
      ∃ seg ∈ splitAll ','
        (pyStrip (((pyStrip "[ , \"a\"]".toList).drop 1).dropLast)),
        pyStrip seg = []) := by
  constructor
  · exact claim_C10.1 "[ ]".toList [' '] (by decide) (by decide)
  · exact claim_C10.2 "[ , \"a\"]".toList (by decide)

/-! ## C7/C8: index builder machinery -/

theorem contains_iff_mem (names : List (List Char)) (x : List Char) :
    names.contains x = true ↔ x ∈ names :=
  List.elem_iff

/-- Characterization of a successful scan loop: every bundle parses, the
parsed names are pairwise distinct and avoid the already-seen set, and
the output lists the entries in input order. -/
theorem buildEntries_ok_iff (key : List Nat) (names : List (List Char))
    (l : List (List Char × List Nat)) (es : List Entry) :
    buildEntries key names l = .ok es ↔
      List.Forall₂ (fun (b : List Char × List Nat) (e : Entry) =>
        parseBundle key b.1 b.2 = .ok e) l es ∧
      (es.map Entry.name).Nodup ∧
      ∀ nm ∈ es.map Entry.name, nm ∉ names := by
  induction l generalizing names es with
  | nil =>
    constructor
    · intro h
      injection h with h
      subst h
      exact ⟨List.Forall₂.nil, by simp, by simp⟩
    · rintro ⟨hf, _⟩
      cases hf
      rfl
  | cons b rest ih =>
    unfold buildEntries
    cases hp : parseBundle key b.1 b.2 with
    | error e =>
      simp only [hp]
      constructor
      · intro h
        exact Except.noConfusion h
      · rintro ⟨hf, _⟩
        cases hf with
        | cons he _ => rw [hp] at he; exact Except.noConfusion he
    | ok entry =>
      simp only [hp]
      by_cases hc : names.contains entry.name
      · rw [if_pos hc]
        constructor
        · intro h
          exact Except.noConfusion h
        · rintro ⟨hf, _, hnm⟩
          cases hf with
          | cons he htail =>
            rename_i e' es'
            rw [hp] at he
            injection he with he
            subst he
            exact absurd ((contains_iff_mem _ _).mp hc)
              (hnm entry.name (by simp))
      · rw [if_neg hc]
        cases hrec : buildEntries key (entry.name :: names) rest with
        | error e2 =>
          simp only [hrec]
          constructor
          · intro h
            exact Except.noConfusion h
          · rintro ⟨hf, hnodup, hnm⟩
            cases hf with
            | cons he htail =>
              rename_i e' es'
              rw [hp] at he
              injection he with he
              subst he
              have : buildEntries key (entry.name :: names) rest = .ok es' := by
                rw [ih]
                refine ⟨htail, (List.nodup_cons.mp (by simpa using hnodup)).2, ?_⟩
                intro nm hnmem
                simp only [List.mem_cons, not_or]
                constructor
                · intro heq
                  subst heq
                  exact absurd hnmem (List.nodup_cons.mp (by simpa using hnodup)).1
                · exact hnm nm (by simp [hnmem])
              rw [hrec] at this
              exact Except.noConfusion this
        | ok es' =>
          simp only [hrec]
          have hrec' := (ih (entry.name :: names) es').mp hrec
          constructor
          · intro h
            injection h with h
            subst h
            refine ⟨List.Forall₂.cons hp hrec'.1, ?_, ?_⟩
            · simp only [List.map_cons, List.nodup_cons]
              refine ⟨?_, hrec'.2.1⟩
              intro hmem
              exact (hrec'.2.2 entry.name hmem) (by simp)
            · intro nm hnmem
              simp only [List.map_cons, List.mem_cons] at hnmem
              rcases hnmem with rfl | hnmem
              · exact fun hm => hc ((contains_iff_mem _ _).mpr hm)
              · intro hm
                exact (hrec'.2.2 nm hnmem) (by simp [hm])
          · rintro ⟨hf, hnodup, hnm⟩
            cases hf with
            | cons he htail =>
              rename_i e' es2
              rw [hp] at he
              injection he with he
              subst he
              have : buildEntries key (entry.name :: names) rest = .ok es2 := by
                rw [ih]
                refine ⟨htail, (List.nodup_cons.mp (by simpa using hnodup)).2, ?_⟩
                intro nm hnmem
                simp only [List.mem_cons, not_or]
                constructor
                · intro heq
                  subst heq
                  exact absurd hnmem (List.nodup_cons.mp (by simpa using hnodup)).1
                · exact hnm nm (by simp [hnmem])
              rw [hrec] at this
              injection this with this
              subst this
              rfl

theorem strLe_total (a : List Char) : ∀ b, strLe a b = true ∨ strLe b a = true := by
  induction a with
  | nil => intro b; left; rfl
  | cons x xs ih =>
    intro b
    cases b with
    | nil => right; rfl
    | cons y ys =>
      unfold strLe
      rcases Nat.lt_trichotomy x.toNat y.toNat with h | h | h
      · left; rw [if_pos h]
      · rw [if_neg (by omega), if_neg (by omega), if_neg (by omega),
          if_neg (by omega)]
        exact ih ys
      · right; rw [if_pos h]

theorem strLe_trans (a : List Char) :
    ∀ b c, strLe a b = true → strLe b c = true → strLe a c = true := by
  induction a with
  | nil => intro b c _ _; rfl
  | cons x xs ih =>
    intro b c hab hbc
    cases b with
    | nil => exact absurd hab (by simp [strLe])
    | cons y ys =>
      cases c with
      | nil => exact absurd hbc (by simp [strLe])
      | cons z zs =>
        unfold strLe at hab hbc ⊢
        rcases Nat.lt_trichotomy x.toNat y.toNat with h1 | h1 | h1 <;>
          rcases Nat.lt_trichotomy y.toNat z.toNat with h2 | h2 | h2 <;>
            first
            | (rw [if_pos (by omega)])
            | (rw [if_neg (by omega), if_pos (by omega)] at hab ⊢
               exact Bool.noConfusion hab)
            | (rw [if_neg (by omega), if_pos (by omega)] at hbc
               exact Bool.noConfusion hbc)
            | (rw [if_neg (by omega), if_neg (by omega)] at hab hbc ⊢
               exact ih ys zs hab hbc)
            | skip
        all_goals
          first
          | rfl
          | (rw [if_neg (by omega), if_pos (by omega)] at hab
             exact Bool.noConfusion hab)
          | (rw [if_neg (by omega), if_pos (by omega)] at hbc
             exact Bool.noConfusion hbc)

theorem strLe_antisymm (a : List Char) :
    ∀ b, strLe a b = true → strLe b a = true → a = b := by
  induction a with
  | nil =>
    intro b _ hba
    cases b with
    | nil => rfl
    | cons y ys => exact absurd hba (by simp [strLe])
  | cons x xs ih =>
    intro b hab hba
    cases b with
    | nil => exact absurd hab (by simp [strLe])
    | cons y ys =>
      unfold strLe at hab hba
      rcases Nat.lt_trichotomy x.toNat y.toNat with h1 | h1 | h1
      · rw [if_neg (by omega), if_pos (by omega)] at hba
        exact Bool.noConfusion hba
      · rw [if_neg (by omega), if_neg (by omega)] at hab hba
        have hxy : x = y := Char.ext (by
          have : x.toNat = y.toNat := h1
          unfold Char.toNat at this
          exact UInt32.toNat.inj this)
        rw [hxy, ih ys hab hba]
      · rw [if_neg (by omega), if_pos (by omega)] at hab
        exact Bool.noConfusion hab

theorem insertEntry_perm (e : Entry) (l : List Entry) :
    (insertEntry e l).Perm (e :: l) := by
  induction l with
  | nil => exact List.Perm.refl _
  | cons x xs ih =>
    unfold insertEntry
    split
    · exact List.Perm.refl _
    · exact List.Perm.trans (List.Perm.cons x ih) (List.Perm.swap e x xs)

theorem sortByName_perm (l : List Entry) : (sortByName l).Perm l := by
  induction l with
  | nil => exact List.Perm.refl _
  | cons x xs ih =>
    unfold sortByName
    simp only [List.foldr_cons]
    exact List.Perm.trans (insertEntry_perm x _) (List.Perm.cons x ih)

theorem insertEntry_sorted (e : Entry) (l : List Entry)
    (h : List.Pairwise (fun a b : Entry => strLe a.name b.name = true) l) :
    List.Pairwise (fun a b : Entry => strLe a.name b.name = true)
      (insertEntry e l) := by
  induction l with
  | nil => exact List.pairwise_singleton _ _
  | cons x xs ih =>
    unfold insertEntry
    split
    · rename_i hle
      refine List.Pairwise.cons ?_ h
      intro b hb
      rcases List.mem_cons.mp hb with rfl | hb
      · exact hle
      · exact strLe_trans _ _ _ hle (List.rel_of_pairwise_cons h hb)
    · rename_i hgt
      have hxe : strLe x.name e.name = true := by
        rcases strLe_total e.name x.name with h1 | h1
        · exact absurd h1 hgt
        · exact h1
      refine List.Pairwise.cons ?_ (ih (List.Pairwise.sublist (by simp) h))
      intro b hb
      have := (insertEntry_perm e xs).mem_iff.mp hb
      rcases List.mem_cons.mp this with rfl | hbxs
      · exact hxe
      · exact List.rel_of_pairwise_cons h hbxs

theorem sortByName_sorted (l : List Entry) :
    List.Pairwise (fun a b : Entry => strLe a.name b.name = true)
      (sortByName l) := by
  induction l with
  | nil => exact List.Pairwise.nil
  | cons x xs ih =>
    unfold sortByName
    simp only [List.foldr_cons]
    exact insertEntry_sorted x _ ih

/-- Two sorted entry lists with the same elements and pairwise-distinct
names are equal: the name-sorted order of a duplicate-free index is
unique (justifying insertion sort as a model of Python's stable sort). -/
theorem sortByName_eq_of_perm (l1 l2 : List Entry) (hp : l1.Perm l2)
    (hs1 : List.Pairwise (fun a b : Entry => strLe a.name b.name = true) l1)
    (hs2 : List.Pairwise (fun a b : Entry => strLe a.name b.name = true) l2)
    (hn1 : (l1.map Entry.name).Nodup) : l1 = l2 := by
  haveI : IsAntisymm Entry (fun a b : Entry =>
      strLe a.name b.name = true ∧ a.name ≠ b.name) :=
    ⟨fun a b h1 h2 => absurd (strLe_antisymm _ _ h1.1 h2.1) h1.2⟩
  have hn2 : (l2.map Entry.name).Nodup := (hp.map Entry.name).nodup hn1
  have hs1' : l1.Pairwise (fun a b : Entry =>
      strLe a.name b.name = true ∧ a.name ≠ b.name) :=
    List.Pairwise.and hs1 (List.pairwise_map.mp hn1)
  have hs2' : l2.Pairwise (fun a b : Entry =>
      strLe a.name b.name = true ∧ a.name ≠ b.name) :=
    List.Pairwise.and hs2 (List.pairwise_map.mp hn2)
  exact List.eq_of_perm_of_sorted hp hs1' hs2'

theorem buildEntries_err_of_fail (key : List Nat)
    (l : List (List Char × List Nat)) (b : List Char × List Nat) (hb : b ∈ l)
    (hfail : ∀ e, parseBundle key b.1 b.2 ≠ .ok e) :
    ∀ names, ∃ err, buildEntries key names l = .error err := by
  induction l with
  | nil => exact absurd hb (List.not_mem_nil b)
  | cons x rest ih =>
    intro names
    cases hp : parseBundle key x.1 x.2 with
    | error e =>
      exact ⟨.bundleFailed x.1 e, by simp only [buildEntries, hp]⟩
    | ok entry =>
      rcases List.mem_cons.mp hb with rfl | hb2
      · exact absurd hp (hfail entry)
      · by_cases hc : names.contains entry.name
        · exact ⟨.duplicateName entry.name, by
            simp only [buildEntries, hp, if_pos hc]⟩
        · obtain ⟨err, herr⟩ := ih hb2 (entry.name :: names)
          exact ⟨err, by simp only [buildEntries, hp, if_neg hc, herr]⟩

theorem buildEntries_err_of_nameMem (key : List Nat)
    (l : List (List Char × List Nat)) (b : List Char × List Nat) (hb : b ∈ l)
    (e : Entry) (hp : parseBundle key b.1 b.2 = .ok e) :
    ∀ names, e.name ∈ names → ∃ err, buildEntries key names l = .error err := by
  induction l with
  | nil => exact absurd hb (List.not_mem_nil b)
  | cons x rest ih =>
    intro names hmem
    cases hx : parseBundle key x.1 x.2 with
    | error e2 =>
      exact ⟨.bundleFailed x.1 e2, by simp only [buildEntries, hx]⟩
    | ok ex =>
      by_cases hc : names.contains ex.name
      · exact ⟨.duplicateName ex.name, by
          simp only [buildEntries, hx, if_pos hc]⟩
      · rcases List.mem_cons.mp hb with rfl | hb2
        · rw [hp] at hx
          injection hx with hx
          subst hx
          exact absurd ((contains_iff_mem _ _).mpr hmem) hc
        · obtain ⟨err, herr⟩ := ih hb2 (ex.name :: names)
            (List.mem_cons_of_mem _ hmem)
          exact ⟨err, by simp only [buildEntries, hx, if_neg hc, herr]⟩

theorem buildEntries_err_of_dup (key : List Nat)
    (b1 b2 : List Char × List Nat) (e1 e2 : Entry)
    (hp1 : parseBundle key b1.1 b1.2 = .ok e1)
    (hp2 : parseBundle key b2.1 b2.2 = .ok e2)
    (hname : e1.name = e2.name) :
    ∀ (pre mid post : List (List Char × List Nat)) names,
      ∃ err, buildEntries key names
        (pre ++ (b1 :: (mid ++ (b2 :: post)))) = .error err := by
  intro pre
  induction pre with
  | nil =>
    intro mid post names
    by_cases hc : names.contains e1.name
    · exact ⟨.duplicateName e1.name, by
        simp only [List.nil_append, buildEntries, hp1, if_pos hc]⟩
    · obtain ⟨err, herr⟩ := buildEntries_err_of_nameMem key (mid ++ b2 :: post)
        b2 (by simp) e2 hp2 (e1.name :: names) (by simp [hname])
      exact ⟨err, by simp only [List.nil_append, buildEntries, hp1,
        if_neg hc, List.append_eq, herr]⟩
  | cons x pre' ih =>
    intro mid post names
    cases hx : parseBundle key x.1 x.2 with
    | error e =>
      exact ⟨.bundleFailed x.1 e, by simp only [List.cons_append,
        buildEntries, hx]⟩
    | ok ex =>
      by_cases hc : names.contains ex.name
      · exact ⟨.duplicateName ex.name, by simp only [List.cons_append,
          buildEntries, hx, if_pos hc]⟩
      · obtain ⟨err, herr⟩ := ih mid post (ex.name :: names)
        refine ⟨err, ?_⟩
        simp only [List.cons_append, buildEntries, hx, if_neg hc,
          List.append_eq, List.append_assoc, List.cons_append]
        rw [herr]

/-- C7: all-or-nothing index builds.  If any bundle in the batch fails
to decode, verify or parse, or if two bundles (at different positions)
parse to entries with the same manifest name, the whole index build
returns an error — no entry list is produced. -/
theorem claim_C7 (key : List Nat) (bundles : List (List Char × List Nat))
    (h : (∃ b ∈ bundles, ∀ e, parseBundle key b.1 b.2 ≠ .ok e) ∨
      (∃ (pre : List (List Char × List Nat)) (b1 : List Char × List Nat)
        (mid : List (List Char × List Nat)) (b2 : List Char × List Nat)
        (post : List (List Char × List Nat)) (e1 e2 : Entry),
        bundles = pre ++ (b1 :: (mid ++ (b2 :: post))) ∧
        parseBundle key b1.1 b1.2 = .ok e1 ∧
        parseBundle key b2.1 b2.2 = .ok e2 ∧ e1.name = e2.name)) :
    ∃ err, buildIndex key bundles = .error err := by
  have hbe : ∃ err, buildEntries key [] bundles = .error err := by
    rcases h with ⟨b, hb, hfail⟩ | ⟨pre, b1, mid, b2, post, e1, e2, rfl, hp1, hp2, hname⟩
    · exact buildEntries_err_of_fail key bundles b hb hfail []
    · exact buildEntries_err_of_dup key b1 b2 e1 e2 hp1 hp2 hname pre mid post []
  obtain ⟨err, herr⟩ := hbe
  exact ⟨err, by simp only [buildIndex, herr]⟩

/-- C7, witness: two bundles with the same manifest name under different
file names abort the index build. -/
theorem claim_C7_witness :
    ∃ err, buildIndex sampleKey
      [("a.rpiece".toList, sampleBundle), ("b.rpiece".toList, sampleBundle)] =
      .error err :=
  claim_C7 sampleKey _ (Or.inr ⟨[], ("a.rpiece".toList, sampleBundle), [],
    ("b.rpiece".toList, sampleBundle), [],
    ⟨"a".toList, "1.2.0".toList, [], [], [], [], true, "a.rpiece".toList⟩,
    ⟨"a".toList, "1.2.0".toList, [], [], [], [], true, "b.rpiece".toList⟩,
    rfl, by decide, by decide, rfl⟩)

/-- C8: index determinism.  Building the index from any permutation of a
valid batch yields the same entry list — hence byte-identical rendered
text — sorted by module name with pairwise-distinct names, and the
renderer emits the fixed header/field layout for every entry list. -/
theorem claim_C8 (key : List Nat) (l1 l2 : List (List Char × List Nat))
    (hperm : l1.Perm l2) (es1 : List Entry)
    (h1 : buildIndex key l1 = .ok es1) :
    buildIndex key l2 = .ok es1 ∧
    List.Pairwise (fun a b : Entry => strLe a.name b.name = true) es1 ∧
    (es1.map Entry.name).Nodup ∧
    (∀ es : List Entry, renderIndex es = joinStr ['\n']
      ("# Auto-generated by tools/market_scan.py".toList ::
        (es.map renderEntry).flatten) ++ ['\n']) := by
  unfold buildIndex at h1
  cases hbe : buildEntries key [] l1 with
  | error e =>
    rw [hbe] at h1
    exact Except.noConfusion h1
  | ok raw1 =>
    rw [hbe] at h1
    injection h1 with h1
    subst h1
    obtain ⟨hf, hnodup, _⟩ := (buildEntries_ok_iff key [] l1 raw1).mp hbe
    obtain ⟨raw2, hf2, hpr⟩ := List.perm_comp_forall₂ hperm.symm hf
    have hnodup2 : (raw2.map Entry.name).Nodup :=
      ((hpr.map Entry.name).nodup_iff).mpr hnodup
    have hbe2 : buildEntries key [] l2 = .ok raw2 :=
      (buildEntries_ok_iff key [] l2 raw2).mpr ⟨hf2, hnodup2, by simp⟩
    have hsorteq : sortByName raw2 = sortByName raw1 := by
      apply sortByName_eq_of_perm
      · exact ((sortByName_perm raw2).trans hpr).trans (sortByName_perm raw1).symm
      · exact sortByName_sorted raw2
      · exact sortByName_sorted raw1
      · exact ((sortByName_perm raw2).map Entry.name).nodup_iff.mpr hnodup2
    refine ⟨?_, sortByName_sorted raw1, ?_, fun es => rfl⟩
    · unfold buildIndex
      simp only [hbe2]
      rw [hsorteq]
    · exact ((sortByName_perm raw1).map Entry.name).nodup_iff.mpr hnodup

/-- A second sample bundle, named `"b"`, for the determinism witness. -/
def sampleManifest2 : List Nat :=
  utf8Encode "name = \"b\"\nversion = \"0.1.0\"".toList

def sampleBundle2 : List Nat := buildBundle sampleManifest2 [1, 2] sampleKey

/-- C8, witness: swapping the discovery order of the two sample bundles
produces the identical (name-sorted) index. -/
theorem claim_C8_witness :
    buildIndex sampleKey
      [("b.rpiece".toList, sampleBundle2), ("a.rpiece".toList, sampleBundle)] =
      .ok [⟨"a".toList, "1.2.0".toList, [], [], [], [], true, "a.rpiece".toList⟩,
           ⟨"b".toList, "0.1.0".toList, [], [], [], [], true, "b.rpiece".toList⟩] :=
  (claim_C8 sampleKey
    [("a.rpiece".toList, sampleBundle), ("b.rpiece".toList, sampleBundle2)]
    [("b.rpiece".toList, sampleBundle2), ("a.rpiece".toList, sampleBundle)]
    (List.Perm.swap ("b.rpiece".toList, sampleBundle2)
      ("a.rpiece".toList, sampleBundle) [])
    [⟨"a".toList, "1.2.0".toList, [], [], [], [], true, "a.rpiece".toList⟩,
     ⟨"b".toList, "0.1.0".toList, [], [], [], [], true, "b.rpiece".toList⟩]
    (by decide)).1

end Ruzzle
